import Mathlib

/-!
Verification of the feistel repository's mode-of-operation core:
the GF(2^n) field engine (src/galois.py) and the CTR / CBC / GCM
mode state machines (src/modes.py), shallowly embedded over lists of
natural numbers (a byte string is a List Nat, a bit vector is a
List Nat whose entries are 0 or 1, most significant bit first, exactly
as the Python code stores them).
-/

/-- Value of a most-significant-first bit vector, as Python's
int(''.join(bits), 2) computes it in GaloisPolynomial.intval. -/
def bitsToNat (l : List Nat) : Nat :=
  l.foldl (fun acc b => 2 * acc + b) 0

/-- The n-bit most-significant-first bit vector of v, as the
while-loop in GaloisPolynomial.`__init__` (src/galois.py lines 34-39)
fills self.bits when v fits in n bits. -/
def natToBits : Nat → Nat → List Nat
  | 0, _ => []
  | n + 1, v => natToBits n (v / 2) ++ [v % 2]

/-- Little-endian byte list of v on a fixed width, as Python's
v.to_bytes(width, "little") produces when v fits. -/
def natToBytesLE : Nat → Nat → List Nat
  | 0, _ => []
  | n + 1, v => v % 256 :: natToBytesLE n (v / 256)

/-- Big-endian byte list of v on a fixed width, as Python's
v.to_bytes(width, "big") produces when v fits. -/
def natToBytesBE : Nat → Nat → List Nat
  | 0, _ => []
  | n + 1, v => natToBytesBE n (v / 256) ++ [v % 256]

/-- Python v.to_bytes(width, "little"): raises OverflowError (modelled
as none) when v needs more than width bytes. -/
def toBytesLE (v width : Nat) : Option (List Nat) :=
  if v < 256 ^ width then some (natToBytesLE width v) else none

/-- Python v.to_bytes(width, "big"): raises OverflowError (modelled
as none) when v needs more than width bytes. -/
def toBytesBE (v width : Nat) : Option (List Nat) :=
  if v < 256 ^ width then some (natToBytesBE width v) else none

/-- Python int.from_bytes(bs, "little"). -/
def fromBytesLE (l : List Nat) : Nat :=
  l.foldr (fun b acc => b + 256 * acc) 0

/-- The irreducible_polynomials table of src/galois.py lines 13-19,
keyed by bit-width; none models a KeyError / failed containment
assertion for an unsupported width. -/
def irreducible_polynomials : Nat → Option (List Nat) := fun n =>
  if n = 8 then some [8, 4, 3, 1, 0]
  else if n = 64 then some [64, 4, 3, 1, 0]
  else if n = 128 then some [128, 7, 2, 1, 0]
  else if n = 256 then some [256, 10, 5, 2, 0]
  else if n = 512 then some [512, 8, 5, 2, 0]
  else none

/-- A GF(2^n) element as src/galois.py represents it: a declared
bit-width, the configured irreducible polynomial as an exponent list,
and the most-significant-first bit vector. -/
structure GaloisPolynomial where
  length : Nat
  irr_pol : List Nat
  bits : List Nat
deriving DecidableEq, Repr

/-- GaloisPolynomial.`__init__` (src/galois.py lines 22-39).
An empty irreducible_polynomial argument selects the table entry for
num_bits (asserting membership).  The constructor then asserts
initial_value fits in num_bits bits (the while-loop's i >= 0 assert)
and max(irr_pol) == num_bits; any assertion failure is none. -/
def GaloisPolynomial.init (num_bits initial_value : Nat)
    (irreducible_polynomial : List Nat) : Option GaloisPolynomial :=
  (if irreducible_polynomial = [] then irreducible_polynomials num_bits
   else some irreducible_polynomial).bind fun irr_pol =>
    if initial_value < 2 ^ num_bits ∧ irr_pol.foldl max 0 = num_bits then
      some ⟨num_bits, irr_pol, natToBits num_bits initial_value⟩
    else none

/-- GaloisPolynomial.intval (src/galois.py lines 41-42): recompose the
most-significant-first bit vector into an integer.  (Python's
int(str, 2) would raise on a width-0 element; no claim involves
width-0 elements, which the modes never create since a cipher block
has at least one byte there.) -/
def GaloisPolynomial.intval (p : GaloisPolynomial) : Nat :=
  bitsToNat p.bits

/-- The elementwise xor loop shared by GaloisPolynomial.xor (lines
48-49) and the reduction step of mult (lines 83-84): for i in
range(len), output[i] = x[i] ^ y[i]. -/
def xorRange (len : Nat) (x y : List Nat) : List Nat :=
  (List.range len).map fun i => Nat.xor (x.getD i 0) (y.getD i 0)

/-- GaloisPolynomial.xor (src/galois.py lines 44-50): requires equal
lengths, builds the output element through the constructor (with the
receiver's irr_pol), then xors bit by bit. -/
def GaloisPolynomial.xor (self other : GaloisPolynomial) :
    Option GaloisPolynomial :=
  if self.length = other.length then
    (GaloisPolynomial.init self.length 0 self.irr_pol).map fun output =>
      ⟨output.length, output.irr_pol, xorRange self.length self.bits other.bits⟩
  else none

/-- The shifted_vals list of GaloisPolynomial.mult (src/galois.py
lines 56-61): for each shift with other.bits[length-1-shift] == 1,
the left operand's bits padded to a 2n-wide row, shifted left by
shift positions. -/
def GaloisPolynomial.multShiftedVals (self other : GaloisPolynomial) :
    List (List Nat) :=
  (List.range self.length).filterMap fun shift =>
    if other.bits.getD (self.length - 1 - shift) 0 = 1 then
      some (List.replicate (self.length - shift) 0 ++ self.bits ++
        List.replicate shift 0)
    else none

/-- The intermediate_polynomial of mult (src/galois.py lines 67-72):
each of the 2n positions is the sum of that column of shifted_vals,
taken mod 2. -/
def GaloisPolynomial.multIntermediate (self other : GaloisPolynomial) :
    List Nat :=
  (List.range (self.length * 2)).map fun i =>
    ((GaloisPolynomial.multShiftedVals self other).foldl
      (fun sum sv => sum + sv.getD i 0) 0) % 2

/-- The dense irr_pol_list of mult (src/galois.py lines 74-77): an
(n+1)-entry most-significant-first vector with a 1 at position
n - index for every exponent index of the sparse polynomial. -/
def densePoly (n : Nat) (exps : List Nat) : List Nat :=
  exps.foldl (fun l e => l.set (n - e) 1) (List.replicate (n + 1) 0)

/-- The reduction loop of mult (src/galois.py lines 79-84): for each
of the top n positions in most-significant-first order, if the bit is
set, xor in the irreducible polynomial shifted so its leading bit
aligns there.  (The shifted row always has length 2n, so the inner
length assertion of line 82 never fires.) -/
def GaloisPolynomial.multReduced (self other : GaloisPolynomial) :
    List Nat :=
  (List.range (self.length * 2 - self.length)).foldl
    (fun ip i =>
      if ip.getD i 0 = 1 then
        xorRange (self.length * 2) ip
          (List.replicate i 0 ++ densePoly self.length self.irr_pol ++
            List.replicate (self.length * 2 - (self.length + 1) - i) 0)
      else ip)
    (GaloisPolynomial.multIntermediate self other)

/-- GaloisPolynomial.mult (src/galois.py lines 52-90): requires equal
lengths; asserts every shifted row has the doubled length (line 65);
after reduction asserts the top n bits are zero (line 85); builds the
output via the constructor and replaces its bits with the low n bits
of the reduced intermediate. -/
def GaloisPolynomial.mult (self other : GaloisPolynomial) :
    Option GaloisPolynomial :=
  if self.length = other.length then
    if (GaloisPolynomial.multShiftedVals self other).all
        (fun sv => sv.length = self.length * 2) then
      if (GaloisPolynomial.multReduced self other).take
            (self.length * 2 - self.length) =
          List.replicate (self.length * 2 - self.length) 0 then
        (GaloisPolynomial.init self.length 0 self.irr_pol).map fun output =>
          ⟨output.length, output.irr_pol,
            (GaloisPolynomial.multReduced self other).drop
              (self.length * 2 - self.length)⟩
      else none
    else none
  else none

/-- Representation invariant of field elements: the bit vector has
exactly the declared number of entries, each 0 or 1, and the
configured irreducible polynomial is nonempty with highest exponent
equal to the bit-width. -/
def GPInv (p : GaloisPolynomial) : Prop :=
  p.bits.length = p.length ∧ (∀ b ∈ p.bits, b ≤ 1) ∧
    p.irr_pol ≠ [] ∧ p.irr_pol.foldl max 0 = p.length

instance (p : GaloisPolynomial) : Decidable (GPInv p) := by
  unfold GPInv; infer_instance

/-- Carry-less product of an n-bit right operand, following the spec
wording of section 4.1 step 1: for each set bit of the right operand
at position i, shift the left operand left by i and accumulate by
xor. -/
def clmulN : Nat → Nat → Nat → Nat
  | 0, _, _ => 0
  | n + 1, a, b => (if b % 2 = 1 then a else 0) ^^^ clmulN n (2 * a) (b / 2)

/-- Dense bitmask of a sparse exponent set, following the spec wording
of section 4.1 step 2. -/
def polyOfExps (exps : List Nat) : Nat :=
  exps.foldl (fun acc e => acc ||| 2 ^ e) 0

/-- One pass of GF(2) long division, following the spec wording of
section 4.1 step 3: process the excess bits from the most significant
downward, xoring in the modulus shifted so its leading bit (degree n)
aligns with each set bit. -/
def gf2ReduceStep (n m : Nat) : Nat → Nat → Nat
  | 0, y => y
  | j + 1, y =>
    gf2ReduceStep n m j (if y.testBit (n + j) then y ^^^ (m <<< j) else y)

/-- Remainder of a 2n-bit value modulo a degree-n polynomial m over
GF(2), by long division from bit 2n-1 down to bit n. -/
def gf2Reduce (n m x : Nat) : Nat :=
  gf2ReduceStep n m n x

/-- The mathematical GF(2^n) product as the spec describes it: the
carry-less polynomial product reduced modulo the irreducible
polynomial given by its exponent set. -/
def gfSpecMult (n : Nat) (exps : List Nat) (a b : Nat) : Nat :=
  gf2Reduce n (polyOfExps exps) (clmulN n a b)

/-- A byte string. -/
abbrev Bytes := List Nat

/-- The abstract block-cipher primitive consumed by every mode
(spec section 6): a fixed block_size and a block encrypt/decrypt
pair. -/
structure Cipher where
  block_size : Nat
  encrypt_block : Bytes → Bytes
  decrypt_block : Bytes → Bytes

/-- The external padding collaborator consumed by ECB / CBC. -/
structure PaddingScheme where
  apply : Bytes → Bytes
  remove : Bytes → Bytes

/-- ModeOfOperation._xor (src/modes.py lines 16-17):
bytes([a ^ b for a, b in zip(block1, block2)]); zip stops at the
shorter input. -/
def ModeOfOperation._xor (block1 block2 : Bytes) : Bytes :=
  List.zipWith (fun a b => Nat.xor a b) block1 block2

/-- Modelled from the spec: eof_signal_iterator lives in iterators.py,
which is not under src/.  Spec section 4.2 says the Block Sequencer
yields each chunk of the source paired with an is_last flag that is
true exactly once, for the final chunk, using one-element lookahead.
On a list source that is: every element paired with false except the
last, which is paired with true. -/
def eof_signal_iterator {α : Type} : List α → List (α × Bool)
  | [] => []
  | [x] => [(x, true)]
  | x :: y :: l => (x, false) :: eof_signal_iterator (y :: l)

/-- The CTR mode session (src/modes.py lines 125-128). -/
structure CTR where
  cipher : Cipher
  nonce : Bytes

/-- CTR._get_xor_block (src/modes.py lines 130-139): the keystream
block for a counter value.  counter.to_bytes(len(nonce), "big") can
raise OverflowError, and the nonce-plus-counter length assert can
fail; both are none. -/
def CTR.get_xor_block (s : CTR) (counter : Nat) : Option Bytes :=
  (toBytesBE counter s.nonce.length).bind fun counter_bytes =>
    if (s.nonce ++ counter_bytes).length = s.cipher.block_size then
      some (s.cipher.encrypt_block (s.nonce ++ counter_bytes))
    else none

/-- The loop body of CTR.encrypt (src/modes.py lines 146-156): per
chunk, fetch the keystream block for the current counter, truncate it
to the chunk length when the final chunk is short, xor, increment. -/
def CTR.encryptLoop (s : CTR) : Nat → List (Bytes × Bool) → Option (List Bytes)
  | _, [] => some []
  | counter, (data, eof) :: rest =>
    (CTR.get_xor_block s counter).bind fun xor_block =>
      let xb := if eof = true ∧ data.length < s.cipher.block_size then
        xor_block.take data.length else xor_block
      (CTR.encryptLoop s (counter + 1) rest).map fun out =>
        ModeOfOperation._xor data xb :: out

/-- CTR.encrypt (src/modes.py lines 141-156): counter starts at 0. -/
def CTR.encrypt (s : CTR) (blocks : List Bytes) : Option (List Bytes) :=
  CTR.encryptLoop s 0 (eof_signal_iterator blocks)

/-- CTR.decrypt (src/modes.py lines 158-161): literally returns
self.encrypt(block_iterator). -/
def CTR.decrypt (s : CTR) (blocks : List Bytes) : Option (List Bytes) :=
  CTR.encrypt s blocks

/-- The CBC mode session (src/modes.py lines 58-64). -/
structure CBC where
  cipher : Cipher
  iv : Bytes
  padding_scheme : PaddingScheme

/-- The loop body of CBC.encrypt (src/modes.py lines 68-102).  The
state is Python's self.cipher_block, initially None; the falsy test
"if not self.cipher_block" also fires on an empty byte string, so it
is modelled as (state.getD [] = []).  When it fires the IV is emitted
and becomes the chaining value.  Non-final blocks chain normally; the
final block goes through the padding collaborator and may become one
or two blocks (the two-block case emits their concatenation); any
other padded length is a fatal padding error (none). -/
def CBC.encryptLoop (c : Cipher) (ps : PaddingScheme) (iv : Bytes) :
    Option Bytes → List (Bytes × Bool) → Option (List Bytes)
  | _, [] => some []
  | cb, (data, eof) :: rest =>
    let emitIv : Bool := (cb.getD []) = []
    let cb0 : Bytes := if emitIv then iv else cb.getD []
    let pre : List Bytes := if emitIv then [iv] else []
    if eof = false then
      let nb := c.encrypt_block (ModeOfOperation._xor data cb0)
      (CBC.encryptLoop c ps iv (some nb) rest).map fun out => pre ++ nb :: out
    else
      let block := ps.apply data
      if block.length = c.block_size then
        let nb := c.encrypt_block (ModeOfOperation._xor block cb0)
        (CBC.encryptLoop c ps iv (some nb) rest).map fun out => pre ++ nb :: out
      else if block.length = 2 * c.block_size then
        let last_block := c.encrypt_block
          (ModeOfOperation._xor (block.take c.block_size) cb0)
        let second := c.encrypt_block
          (ModeOfOperation._xor (block.drop c.block_size) last_block)
        let nb := last_block ++ second
        (CBC.encryptLoop c ps iv (some nb) rest).map fun out => pre ++ nb :: out
      else none

/-- CBC.encrypt (src/modes.py lines 66-102). -/
def CBC.encrypt (s : CBC) (blocks : List Bytes) : Option (List Bytes) :=
  CBC.encryptLoop s.cipher s.padding_scheme s.iv none (eof_signal_iterator blocks)

/-- The loop body of CBC.decrypt (src/modes.py lines 111-118): each
block is decrypted then xored against the previous ciphertext block,
which becomes the new chaining value; the final block additionally
goes through padding removal. -/
def CBC.decryptLoop (c : Cipher) (ps : PaddingScheme) :
    Bytes → List (Bytes × Bool) → List Bytes
  | _, [] => []
  | cipher_block, (data, eof) :: rest =>
    (if eof = false then
      ModeOfOperation._xor (c.decrypt_block data) cipher_block
     else
      ps.remove (ModeOfOperation._xor (c.decrypt_block data) cipher_block)) ::
    CBC.decryptLoop c ps data rest

/-- CBC.decrypt (src/modes.py lines 104-118): the first input element
is consumed by next() as the IV / initial chaining value (StopIteration
on an empty stream is none); the remaining elements are decrypted. -/
def CBC.decrypt (s : CBC) (blocks : List Bytes) : Option (List Bytes) :=
  match eof_signal_iterator blocks with
  | [] => none
  | (iv0, _) :: rest => some (CBC.decryptLoop s.cipher s.padding_scheme iv0 rest)

/-- The GCM mode session (src/modes.py lines 175-179). -/
structure GCM where
  cipher : Cipher
  nonce : Bytes
  header : Bytes

/-- GCM._get_xor_block (src/modes.py lines 181-190), identical to the
CTR one. -/
def GCM.get_xor_block (s : GCM) (counter : Nat) : Option Bytes :=
  (toBytesBE counter s.nonce.length).bind fun counter_bytes =>
    if (s.nonce ++ counter_bytes).length = s.cipher.block_size then
      some (s.cipher.encrypt_block (s.nonce ++ counter_bytes))
    else none

/-- The per-block loop of GCM.encrypt (src/modes.py lines 213-224):
xor the chunk against the keystream block of the current counter,
fold the ciphertext into the rolling polynomial (xor then multiply by
Ek_0), increment the counter.  Returns the ciphertext blocks, the
final rolling polynomial and the final counter. -/
def GCM.encryptLoop (s : GCM) (num_bits : Nat) (Ek0 : GaloisPolynomial) :
    GaloisPolynomial → Nat → List (Bytes × Bool) →
    Option (List Bytes × GaloisPolynomial × Nat)
  | rp, counter, [] => some ([], rp, counter)
  | rp, counter, (data, _eof) :: rest =>
    (GCM.get_xor_block s counter).bind fun xor_block =>
      let ciphertext := ModeOfOperation._xor data xor_block
      (GaloisPolynomial.init num_bits (fromBytesLE ciphertext) []).bind fun C =>
        (rp.xor C).bind fun t =>
          (t.mult Ek0).bind fun rp2 =>
            (GCM.encryptLoop s num_bits Ek0 rp2 (counter + 1) rest).map
              fun (outs, rpF, cF) => (ciphertext :: outs, rpF, cF)

/-- The finalization shared verbatim by GCM.encrypt (src/modes.py
lines 226-232) and GCM.decrypt (lines 270-276): build the
length-encoding element len(header) << (num_bits/2) plus the final
counter, fold it into the rolling polynomial, multiply by Ek_0 once
more, mask with ek_nonce and serialize little-endian into one
block. -/
def GCM.finalize (s : GCM) (num_bits : Nat) (Ek0 rp : GaloisPolynomial)
    (counter : Nat) (ek_nonce : GaloisPolynomial) : Option Bytes :=
  (GaloisPolynomial.init num_bits
      ((s.header.length <<< (num_bits / 2)) + counter) []).bind fun extra_gp =>
    (rp.xor extra_gp).bind fun t =>
      (t.mult Ek0).bind fun rp2 =>
        (rp2.xor ek_nonce).bind fun gmac =>
          toBytesLE gmac.intval s.cipher.block_size

/-- GCM.encrypt (src/modes.py lines 192-232): derive ek_nonce from
counter 0, assert the header fits one block, emit the header
zero-extended to a block, seed the accumulator with
header-as-element times H = E_k(zero block), run the counter loop
from 1, then emit the finalization tag. -/
def GCM.encrypt (s : GCM) (blocks : List Bytes) : Option (List Bytes) :=
  let num_bits := 8 * s.cipher.block_size
  (GCM.get_xor_block s 0).bind fun xb0 =>
    (GaloisPolynomial.init num_bits (fromBytesLE xb0) []).bind fun ek_nonce =>
      if s.header.length ≤ s.cipher.block_size then
        (GaloisPolynomial.init num_bits (fromBytesLE s.header) []).bind fun A =>
          (toBytesLE (fromBytesLE s.header) s.cipher.block_size).bind
            fun header_bytes =>
            (GaloisPolynomial.init num_bits
                (fromBytesLE (s.cipher.encrypt_block
                  (List.replicate s.cipher.block_size 0))) []).bind fun Ek0 =>
              (A.mult Ek0).bind fun rp0 =>
                (GCM.encryptLoop s num_bits Ek0 rp0 1
                    (eof_signal_iterator blocks)).bind fun (body, rpF, cF) =>
                  (GCM.finalize s num_bits Ek0 rpF cF ek_nonce).map fun tag =>
                    header_bytes :: body ++ [tag]
      else none

/-- The per-block loop of GCM.decrypt (src/modes.py lines 255-268):
the loop breaks on the eof-flagged element without decrypting it (it
is the received tag); every earlier element is folded into the
rolling polynomial as ciphertext and decrypted by xoring the
keystream block.  Returns the plaintexts, the final rolling
polynomial, the final counter and the element the break left in the
ciphertext variable; an empty list means that variable was never
bound (Python NameError at the comparison), hence none. -/
def GCM.decryptLoop (s : GCM) (num_bits : Nat) (Ek0 : GaloisPolynomial) :
    GaloisPolynomial → Nat → List (Bytes × Bool) →
    Option (List Bytes × GaloisPolynomial × Nat × Bytes)
  | _, _, [] => none
  | rp, counter, (ciphertext, eof) :: rest =>
    if eof = true then some ([], rp, counter, ciphertext)
    else
      (GCM.get_xor_block s counter).bind fun xor_block =>
        let data := ModeOfOperation._xor ciphertext xor_block
        (GaloisPolynomial.init num_bits (fromBytesLE ciphertext) []).bind fun C =>
          (rp.xor C).bind fun t =>
            (t.mult Ek0).bind fun rp2 =>
              (GCM.decryptLoop s num_bits Ek0 rp2 (counter + 1) rest).map
                fun (outs, rpF, cF, lastC) => (data :: outs, rpF, cF, lastC)

/-- GCM.decrypt (src/modes.py lines 234-281): the first element is
the header block (a one-element stream fails the "File contained only
1 block" assert; an empty stream is a StopIteration); the accumulator
is seeded exactly as in encrypt; after the loop the tag is recomputed
by the shared finalization and compared against the last received
element.  The result pairs the decrypted blocks with the verification
outcome. -/
def GCM.decrypt (s : GCM) (blocks : List Bytes) :
    Option (List Bytes × Bool) :=
  let num_bits := 8 * s.cipher.block_size
  (GCM.get_xor_block s 0).bind fun xb0 =>
    (GaloisPolynomial.init num_bits (fromBytesLE xb0) []).bind fun ek_nonce =>
      match eof_signal_iterator blocks with
      | [] => none
      | (header_bytes, b) :: rest =>
        if b = true then none
        else
          (GaloisPolynomial.init num_bits (fromBytesLE header_bytes) []).bind
            fun A =>
            (GaloisPolynomial.init num_bits
                (fromBytesLE (s.cipher.encrypt_block
                  (List.replicate s.cipher.block_size 0))) []).bind fun Ek0 =>
              (A.mult Ek0).bind fun rp0 =>
                (GCM.decryptLoop s num_bits Ek0 rp0 1 rest).bind
                  fun (outs, rpF, cF, lastC) =>
                    (GCM.finalize s num_bits Ek0 rpF cF ek_nonce).map
                      fun gmac_bytes => (outs, decide (gmac_bytes = lastC))

/-- A stub cipher whose block operations are the identity, used to
exercise the mode state machines on concrete inputs. -/
def idCipher (bs : Nat) : Cipher :=
  ⟨bs, fun b => b, fun b => b⟩
/-- A stub cipher over 8-byte blocks that maps the all-zero block to
the little-endian representation of 1 and every other block to
itself, making the GCM hash subkey H the field's multiplicative
identity. -/
def oneCipher : Cipher :=
  ⟨8, fun b => if b = List.replicate 8 0 then [1, 0, 0, 0, 0, 0, 0, 0] else b,
    fun b => b⟩
/-- The finalization that claim C4 describes: the length-encoding
element combines header_length shifted by half the bit-width with
block_count, the number of data blocks processed (not the session's
final counter value). -/
def GCM.finalizeClaimedC4 (s : GCM) (num_bits : Nat)
    (Ek0 rp : GaloisPolynomial) (block_count : Nat)
    (ek_nonce : GaloisPolynomial) : Option Bytes :=
  (GaloisPolynomial.init num_bits
      ((s.header.length <<< (num_bits / 2)) ||| block_count) []).bind
    fun extra_gp =>
    (rp.xor extra_gp).bind fun t =>
      (t.mult Ek0).bind fun rp2 =>
        (rp2.xor ek_nonce).bind fun gmac =>
          toBytesLE gmac.intval s.cipher.block_size

/-- The output GCM.encrypt would produce if, as claim C4 states, the
length-encoding element used block_count -- the number of data blocks
processed -- instead of the final counter value. -/
def GCM.encryptClaimedC4 (s : GCM) (blocks : List Bytes) :
    Option (List Bytes) :=
  let num_bits := 8 * s.cipher.block_size
  (GCM.get_xor_block s 0).bind fun xb0 =>
    (GaloisPolynomial.init num_bits (fromBytesLE xb0) []).bind fun ek_nonce =>
      if s.header.length ≤ s.cipher.block_size then
        (GaloisPolynomial.init num_bits (fromBytesLE s.header) []).bind fun A =>
          (toBytesLE (fromBytesLE s.header) s.cipher.block_size).bind
            fun header_bytes =>
            (GaloisPolynomial.init num_bits
                (fromBytesLE (s.cipher.encrypt_block
                  (List.replicate s.cipher.block_size 0))) []).bind fun Ek0 =>
              (A.mult Ek0).bind fun rp0 =>
                (GCM.encryptLoop s num_bits Ek0 rp0 1
                    (eof_signal_iterator blocks)).bind fun (body, rpF, _cF) =>
                  (GCM.finalizeClaimedC4 s num_bits Ek0 rpF blocks.length
                      ek_nonce).map fun tag =>
                    header_bytes :: body ++ [tag]
      else none

/-! ### Arithmetic facts about bit vectors -/

theorem foldl_two_mul_add (l : List Nat) (a : Nat) :
    l.foldl (fun acc b => 2 * acc + b) a =
      a * 2 ^ l.length + l.foldl (fun acc b => 2 * acc + b) 0 := by
  induction l generalizing a with
  | nil => simp
  | cons x l ih =>
    simp only [List.foldl_cons, List.length_cons]
    rw [ih (2 * a + x), ih (2 * 0 + x)]
    ring

theorem bitsToNat_cons (x : Nat) (l : List Nat) :
    bitsToNat (x :: l) = x * 2 ^ l.length + bitsToNat l := by
  unfold bitsToNat
  simp only [List.foldl_cons]
  rw [foldl_two_mul_add l (2 * 0 + x), foldl_two_mul_add l (2 * 0 + 0)]
  ring

theorem bitsToNat_append (l m : List Nat) :
    bitsToNat (l ++ m) = bitsToNat l * 2 ^ m.length + bitsToNat m := by
  induction l with
  | nil => simp [bitsToNat]
  | cons x l ih =>
    rw [List.cons_append, bitsToNat_cons, ih, bitsToNat_cons,
      List.length_append]
    ring

theorem bitsToNat_replicate_zero (k : Nat) :
    bitsToNat (List.replicate k 0) = 0 := by
  induction k with
  | zero => rfl
  | succ k ih => rw [List.replicate_succ, bitsToNat_cons, ih]; simp

theorem length_natToBits (n v : Nat) : (natToBits n v).length = n := by
  induction n generalizing v with
  | zero => rfl
  | succ n ih => simp [natToBits, ih]

theorem bitsToNat_natToBits (n v : Nat) :
    bitsToNat (natToBits n v) = v % 2 ^ n := by
  induction n generalizing v with
  | zero => simp [natToBits, bitsToNat, Nat.mod_one]
  | succ n ih =>
    rw [natToBits, bitsToNat_append, ih]
    have h2 : (2 : Nat) ^ (n + 1) = 2 * 2 ^ n := by ring
    rw [h2, Nat.mod_mul]
    simp only [List.length_singleton, pow_one]
    have h3 : bitsToNat [v % 2] = v % 2 := by simp [bitsToNat]
    rw [h3]
    ring

theorem natToBits_le_one (n v : Nat) : ∀ b ∈ natToBits n v, b ≤ 1 := by
  induction n generalizing v with
  | zero => simp [natToBits]
  | succ n ih =>
    intro b hb
    rw [natToBits, List.mem_append] at hb
    rcases hb with hb | hb
    · exact ih _ b hb
    · simp only [List.mem_singleton] at hb
      subst hb
      exact Nat.le_of_lt_succ (Nat.mod_lt _ (by norm_num))

theorem bitsToNat_lt_two_pow (l : List Nat) (hl : ∀ b ∈ l, b ≤ 1) :
    bitsToNat l < 2 ^ l.length := by
  induction l with
  | nil => simp [bitsToNat]
  | cons x l ih =>
    rw [bitsToNat_cons, List.length_cons, pow_succ]
    have hx : x ≤ 1 := hl x (List.mem_cons_self _ _)
    have hrest := ih (fun b hb => hl b (List.mem_cons_of_mem _ hb))
    calc x * 2 ^ l.length + bitsToNat l
        ≤ 1 * 2 ^ l.length + bitsToNat l := by
          exact Nat.add_le_add_right (Nat.mul_le_mul_right _ hx) _
      _ < 2 ^ l.length + 2 ^ l.length := by omega
      _ = 2 ^ l.length * 2 := by ring

theorem getD_le_one (l : List Nat) (hl : ∀ b ∈ l, b ≤ 1) (i : Nat) :
    l.getD i 0 ≤ 1 := by
  by_cases h : i < l.length
  · rw [List.getD_eq_getElem l 0 h]
    exact hl _ (List.getElem_mem h)
  · rw [List.getD_eq_default l 0 (Nat.le_of_not_lt h)]
    exact Nat.zero_le 1

theorem testBit_high_of_lt (x i : Nat) (h : x < 2 ^ i) :
    x.testBit i = false :=
  Nat.testBit_lt_two_pow h

theorem testBit_mul_pow_add_low (x u k i : Nat) (hu : u < 2 ^ k)
    (hik : i < k) : (x * 2 ^ k + u).testBit i = u.testBit i := by
  have hd : (x * 2 ^ k + u) / 2 ^ i = u / 2 ^ i + x * 2 ^ (k - i) := by
    have hk : x * 2 ^ k = x * 2 ^ (k - i) * 2 ^ i := by
      rw [mul_assoc, ← pow_add, Nat.sub_add_cancel (le_of_lt hik)]
    rw [hk, Nat.add_comm, Nat.add_mul_div_right _ _ (Nat.pos_pow_of_pos i
      (by norm_num))]
  have he : x * 2 ^ (k - i) % 2 = 0 := by
    have hki : (2 : Nat) ^ (k - i) = 2 ^ (k - i - 1) * 2 := by
      rw [← pow_succ, Nat.sub_add_cancel (by omega : 1 ≤ k - i)]
    rw [hki, ← mul_assoc]
    exact Nat.mul_mod_left _ _
  rw [Nat.testBit_to_div_mod, Nat.testBit_to_div_mod, hd, Nat.add_mod,
    he]
  simp

theorem testBit_mul_pow_add_high (x u k : Nat) (hu : u < 2 ^ k)
    (hx : x ≤ 1) : (x * 2 ^ k + u).testBit k = decide (x = 1) := by
  have hd : (x * 2 ^ k + u) / 2 ^ k = x := by
    rw [Nat.add_comm, Nat.add_mul_div_right _ _ (Nat.pos_pow_of_pos k
      (by norm_num)), Nat.div_eq_of_lt hu]
    omega
  rw [Nat.testBit_to_div_mod, hd]
  interval_cases x <;> simp

/-- The central correspondence: bit i of the value of a boolean
most-significant-first list is entry length - 1 - i of the list. -/
theorem bitsToNat_testBit (l : List Nat) (hl : ∀ b ∈ l, b ≤ 1) (i : Nat)
    (hi : i < l.length) :
    (bitsToNat l).testBit i = decide (l.getD (l.length - 1 - i) 0 = 1) := by
  induction l with
  | nil => simp at hi
  | cons x l ih =>
    have hx : x ≤ 1 := hl x (List.mem_cons_self _ _)
    have hl2 : ∀ b ∈ l, b ≤ 1 := fun b hb => hl b (List.mem_cons_of_mem _ hb)
    have hrest := bitsToNat_lt_two_pow l hl2
    rw [bitsToNat_cons]
    rcases Nat.lt_or_ge i l.length with h | h
    · rw [testBit_mul_pow_add_low _ _ _ _ hrest h, ih hl2 h]
      have : (x :: l).length - 1 - i = (l.length - 1 - i) + 1 := by
        simp only [List.length_cons]
        omega
      rw [this]
      rfl
    · have hik : i = l.length := by
        simp only [List.length_cons] at hi
        omega
      subst hik
      rw [testBit_mul_pow_add_high _ _ _ hrest hx]
      have : (x :: l).length - 1 - l.length = 0 := by
        simp only [List.length_cons]
        omega
      rw [this]
      rfl

theorem bitsToNat_testBit_ge (l : List Nat) (hl : ∀ b ∈ l, b ≤ 1)
    (i : Nat) (hi : l.length ≤ i) : (bitsToNat l).testBit i = false := by
  refine testBit_high_of_lt _ _ (lt_of_lt_of_le (bitsToNat_lt_two_pow l hl) ?_)
  exact Nat.pow_le_pow_right (by norm_num) hi

/-! ### xorRange and densePoly correspondences -/

theorem length_xorRange (len : Nat) (x y : List Nat) :
    (xorRange len x y).length = len := by
  simp [xorRange]

theorem getD_xorRange (len : Nat) (x y : List Nat) (i : Nat)
    (hi : i < len) :
    (xorRange len x y).getD i 0 = Nat.xor (x.getD i 0) (y.getD i 0) := by
  unfold xorRange
  rw [List.getD_eq_getElem _ 0 (by simpa using hi)]
  simp [hi]

theorem xor_le_one {a b : Nat} (ha : a ≤ 1) (hb : b ≤ 1) :
    Nat.xor a b ≤ 1 := by
  interval_cases a <;> interval_cases b <;> decide

theorem xorRange_le_one (len : Nat) (x y : List Nat)
    (hx : ∀ b ∈ x, b ≤ 1) (hy : ∀ b ∈ y, b ≤ 1) :
    ∀ b ∈ xorRange len x y, b ≤ 1 := by
  intro b hb
  unfold xorRange at hb
  rw [List.mem_map] at hb
  obtain ⟨i, _, rfl⟩ := hb
  exact xor_le_one (getD_le_one x hx i) (getD_le_one y hy i)

theorem bitsToNat_xorRange (len : Nat) (x y : List Nat)
    (hxl : x.length = len) (hyl : y.length = len)
    (hx : ∀ b ∈ x, b ≤ 1) (hy : ∀ b ∈ y, b ≤ 1) :
    bitsToNat (xorRange len x y) = (bitsToNat x) ^^^ (bitsToNat y) := by
  have hb1 : ∀ b ∈ xorRange len x y, b ≤ 1 := xorRange_le_one len x y hx hy
  have hlen : (xorRange len x y).length = len := length_xorRange len x y
  apply Nat.eq_of_testBit_eq
  intro i
  rcases Nat.lt_or_ge i len with hi | hi
  · rw [Nat.testBit_xor,
      bitsToNat_testBit _ hb1 i (by rw [hlen]; exact hi),
      bitsToNat_testBit x hx i (by rw [hxl]; exact hi),
      bitsToNat_testBit y hy i (by rw [hyl]; exact hi)]
    rw [hlen, hxl, hyl]
    rw [getD_xorRange len x y _ (by omega)]
    have hx1 := getD_le_one x hx (len - 1 - i)
    have hy1 := getD_le_one y hy (len - 1 - i)
    set a := x.getD (len - 1 - i) 0
    set b := y.getD (len - 1 - i) 0
    interval_cases a <;> interval_cases b <;> decide
  · rw [Nat.testBit_xor,
      bitsToNat_testBit_ge _ hb1 i (by rw [hlen]; exact hi),
      bitsToNat_testBit_ge x hx i (by rw [hxl]; exact hi),
      bitsToNat_testBit_ge y hy i (by rw [hyl]; exact hi)]
    rfl

theorem bitsToNat_set_one (l : List Nat) (n e : Nat)
    (hl : ∀ b ∈ l, b ≤ 1) (hlen : l.length = n + 1) (he : e ≤ n) :
    bitsToNat (l.set (n - e) 1) = (bitsToNat l) ||| (2 ^ e) := by
  have hsl : (l.set (n - e) 1).length = n + 1 := by simp [hlen]
  have hs1 : ∀ b ∈ l.set (n - e) 1, b ≤ 1 := by
    intro b hb
    rcases List.mem_or_eq_of_mem_set hb with h | h
    · exact hl b h
    · omega
  apply Nat.eq_of_testBit_eq
  intro i
  rcases Nat.lt_or_ge i (n + 1) with hi | hi
  · rw [Nat.testBit_or, bitsToNat_testBit _ hs1 i (by omega),
      bitsToNat_testBit l hl i (by omega), hsl, hlen,
      Nat.testBit_two_pow]
    have hidx : n + 1 - 1 - i = n - i := by omega
    rw [hidx]
    by_cases hie : i = e
    · subst hie
      have : (l.set (n - i) 1).getD (n - i) 0 = 1 := by
        rw [List.getD_eq_getElem _ 0 (by omega)]
        rw [List.getElem_set_self]
      rw [this]
      simp
    · have hne : n - i ≠ n - e := by omega
      have : (l.set (n - e) 1).getD (n - i) 0 = l.getD (n - i) 0 := by
        rw [List.getD_eq_getElem _ 0 (by omega),
          List.getD_eq_getElem _ 0 (by omega)]
        exact List.getElem_set_ne (by omega) _
      rw [this]
      simp [Ne.symm hie]
  · rw [Nat.testBit_or, bitsToNat_testBit_ge _ hs1 i (by omega),
      bitsToNat_testBit_ge l hl i (by omega), Nat.testBit_two_pow]
    have : e ≠ i := by omega
    simp [this]

/-! ### Facts about foldl max -/

theorem foldl_max_le (l : List Nat) (a : Nat) :
    a ≤ l.foldl max a ∧ ∀ x ∈ l, x ≤ l.foldl max a := by
  induction l generalizing a with
  | nil => simp
  | cons y l ih =>
    obtain ⟨h1, h2⟩ := ih (max a y)
    refine ⟨le_trans (le_max_left a y) h1, ?_⟩
    intro x hx
    rcases List.mem_cons.mp hx with rfl | hx
    · exact le_trans (le_max_right a x) h1
    · exact h2 x hx

theorem foldl_max_mem (l : List Nat) (a : Nat) :
    l.foldl max a = a ∨ l.foldl max a ∈ l := by
  induction l generalizing a with
  | nil => simp
  | cons y l ih =>
    rcases ih (max a y) with h | h
    · rcases max_choice a y with hm | hm
      · left; rw [List.foldl_cons, h, hm]
      · right; rw [List.foldl_cons, h, hm]; exact List.mem_cons_self _ _
    · right; exact List.mem_cons_of_mem _ h

theorem max_exp_mem (l : List Nat) (n : Nat) (hne : l ≠ [])
    (h : l.foldl max 0 = n) : n ∈ l := by
  rcases foldl_max_mem l 0 with h0 | h0
  · rw [h] at h0
    obtain ⟨x, l2, rfl⟩ := List.exists_cons_of_ne_nil hne
    have hx : x ≤ (x :: l2).foldl max 0 := (foldl_max_le (x :: l2) 0).2 x
      (List.mem_cons_self _ _)
    rw [h] at hx
    have : x = n := by omega
    rw [← this]
    exact List.mem_cons_self _ _
  · rw [h] at h0
    exact h0

/-! ### polyOfExps and densePoly -/

theorem foldl_or_testBit (exps : List Nat) (acc j : Nat) :
    (exps.foldl (fun a e => a ||| 2 ^ e) acc).testBit j =
      (acc.testBit j || decide (j ∈ exps)) := by
  induction exps generalizing acc with
  | nil => simp
  | cons e exps ih =>
    rw [List.foldl_cons, ih]
    simp only [Nat.testBit_or, Nat.testBit_two_pow, List.mem_cons]
    by_cases hje : j = e <;> simp [hje, eq_comm]

theorem testBit_polyOfExps (exps : List Nat) (j : Nat) :
    (polyOfExps exps).testBit j = decide (j ∈ exps) := by
  unfold polyOfExps
  rw [foldl_or_testBit]
  simp

theorem polyOfExps_lt (exps : List Nat) (n : Nat)
    (h : ∀ e ∈ exps, e ≤ n) : polyOfExps exps < 2 ^ (n + 1) := by
  have : ∀ j, (polyOfExps exps).testBit j = true → j < n + 1 := by
    intro j hj
    rw [testBit_polyOfExps] at hj
    have := h j (by simpa using hj)
    omega
  exact Nat.lt_pow_two_of_testBit _ (fun j hj =>
    by
      by_contra hc
      exact absurd (this j (by simpa using hc)) (by omega))

theorem densePoly_spec_aux (exps : List Nat) (n : Nat)
    (h : ∀ e ∈ exps, e ≤ n) (L : List Nat) (acc : Nat)
    (hL : L.length = n + 1) (hb : ∀ b ∈ L, b ≤ 1) (hv : bitsToNat L = acc) :
    (exps.foldl (fun l e => l.set (n - e) 1) L).length = n + 1 ∧
    (∀ b ∈ exps.foldl (fun l e => l.set (n - e) 1) L, b ≤ 1) ∧
    bitsToNat (exps.foldl (fun l e => l.set (n - e) 1) L) =
      exps.foldl (fun a e => a ||| 2 ^ e) acc := by
  induction exps generalizing L acc with
  | nil => exact ⟨hL, hb, by simpa using hv⟩
  | cons e exps ih =>
    have he : e ≤ n := h e (List.mem_cons_self _ _)
    have hL2 : (L.set (n - e) 1).length = n + 1 := by simp [hL]
    have hb2 : ∀ b ∈ L.set (n - e) 1, b ≤ 1 := by
      intro b hmem
      rcases List.mem_or_eq_of_mem_set hmem with hmem | hmem
      · exact hb b hmem
      · omega
    have hv2 : bitsToNat (L.set (n - e) 1) = acc ||| 2 ^ e := by
      rw [bitsToNat_set_one L n e hb hL he, hv]
    exact ih (fun x hx => h x (List.mem_cons_of_mem _ hx)) _ _ hL2 hb2 hv2

theorem densePoly_spec (exps : List Nat) (n : Nat)
    (h : ∀ e ∈ exps, e ≤ n) :
    (densePoly n exps).length = n + 1 ∧
    (∀ b ∈ densePoly n exps, b ≤ 1) ∧
    bitsToNat (densePoly n exps) = polyOfExps exps := by
  exact densePoly_spec_aux exps n h (List.replicate (n + 1) 0) 0
    (by simp) (by simp) (bitsToNat_replicate_zero _)

/-! ### The carry-less product and the intermediate polynomial -/

theorem foldl_add_getD (svs : List (List Nat)) (a i : Nat) :
    svs.foldl (fun sum sv => sum + sv.getD i 0) a =
      a + svs.foldl (fun sum sv => sum + sv.getD i 0) 0 := by
  induction svs generalizing a with
  | nil => simp
  | cons sv svs ih =>
    simp only [List.foldl_cons]
    rw [ih (a + sv.getD i 0), ih (0 + sv.getD i 0)]
    omega

theorem add_mod_two_xor (x s : Nat) (hx : x ≤ 1) :
    (x + s) % 2 = Nat.xor x (s % 2) := by
  rcases Nat.mod_two_eq_zero_or_one s with h | h <;>
    interval_cases x <;> rw [Nat.add_mod, h] <;> decide

theorem getD_map_range (L : Nat) (f : Nat → Nat) (i : Nat) (hi : i < L) :
    ((List.range L).map f).getD i 0 = f i := by
  rw [List.getD_eq_getElem _ 0 (by simpa using hi)]
  simp [hi]

theorem filterMap_congr_mem {α β : Type} (l : List α)
    (f g : α → Option β) (h : ∀ x ∈ l, f x = g x) :
    l.filterMap f = l.filterMap g := by
  induction l with
  | nil => rfl
  | cons x l ih =>
    rw [List.filterMap_cons, List.filterMap_cons,
      h x (List.mem_cons_self _ _), ih (fun y hy => h y
        (List.mem_cons_of_mem _ hy))]

theorem parityMap_eq_foldr (L : Nat) (svs : List (List Nat))
    (h : ∀ sv ∈ svs, ∀ b ∈ sv, b ≤ 1) :
    (List.range L).map
        (fun i => (svs.foldl (fun sum sv => sum + sv.getD i 0) 0) % 2) =
      svs.foldr (fun sv acc => xorRange L sv acc) (List.replicate L 0) := by
  induction svs with
  | nil =>
    simp only [List.foldr_nil, List.foldl_nil, Nat.zero_mod]
    rw [List.eq_replicate_iff]
    constructor
    · simp
    · intro b hb
      rw [List.mem_map] at hb
      obtain ⟨i, _, rfl⟩ := hb
      rfl
  | cons sv svs ih =>
    have hsv : ∀ b ∈ sv, b ≤ 1 := h sv (List.mem_cons_self _ _)
    have hrest := ih (fun s hs => h s (List.mem_cons_of_mem _ hs))
    rw [List.foldr_cons, ← hrest]
    unfold xorRange
    apply List.map_congr_left
    intro i hi
    rw [List.mem_range] at hi
    rw [List.foldl_cons, foldl_add_getD, Nat.zero_add,
      add_mod_two_xor _ _ (getD_le_one sv hsv i),
      getD_map_range L _ i hi]

theorem foldr_xorRange_facts (L : Nat) (svs : List (List Nat))
    (h : ∀ sv ∈ svs, sv.length = L ∧ ∀ b ∈ sv, b ≤ 1) :
    (svs.foldr (fun sv acc => xorRange L sv acc)
        (List.replicate L 0)).length = L ∧
    (∀ b ∈ svs.foldr (fun sv acc => xorRange L sv acc)
        (List.replicate L 0), b ≤ 1) ∧
    bitsToNat (svs.foldr (fun sv acc => xorRange L sv acc)
        (List.replicate L 0)) =
      svs.foldr (fun sv acc => bitsToNat sv ^^^ acc) 0 := by
  induction svs with
  | nil =>
    refine ⟨by simp, by simp, bitsToNat_replicate_zero _⟩
  | cons sv svs ih =>
    obtain ⟨hlen, hbool, hval⟩ := ih (fun s hs => h s
      (List.mem_cons_of_mem _ hs))
    obtain ⟨hsvl, hsvb⟩ := h sv (List.mem_cons_self _ _)
    refine ⟨length_xorRange _ _ _, xorRange_le_one _ _ _ hsvb hbool, ?_⟩
    rw [List.foldr_cons, List.foldr_cons,
      bitsToNat_xorRange L _ _ hsvl hlen hsvb hbool, hval]

theorem multShiftedVals_all (p q : GaloisPolynomial)
    (hpb : p.bits.length = p.length) (hpbool : ∀ b ∈ p.bits, b ≤ 1) :
    ∀ sv ∈ GaloisPolynomial.multShiftedVals p q,
      sv.length = p.length * 2 ∧ ∀ b ∈ sv, b ≤ 1 := by
  intro sv hsv
  unfold GaloisPolynomial.multShiftedVals at hsv
  rw [List.mem_filterMap] at hsv
  obtain ⟨shift, hshift, hcond⟩ := hsv
  rw [List.mem_range] at hshift
  by_cases hc : q.bits.getD (p.length - 1 - shift) 0 = 1
  · rw [if_pos hc, Option.some_inj] at hcond
    subst hcond
    constructor
    · simp only [List.length_append, List.length_replicate, hpb]
      omega
    · intro b hb
      simp only [List.mem_append, List.mem_replicate] at hb
      rcases hb with (hb | hb) | hb
      · omega
      · exact hpbool b hb
      · omega
  · rw [if_neg hc] at hcond
    exact absurd hcond (by simp)

theorem multShiftedVals_map_bitsToNat (p q : GaloisPolynomial)
    (hpb : p.bits.length = p.length) (hqb : q.bits.length = p.length)
    (hqbool : ∀ b ∈ q.bits, b ≤ 1) :
    (GaloisPolynomial.multShiftedVals p q).map bitsToNat =
      (List.range p.length).filterMap (fun s =>
        if (bitsToNat q.bits).testBit s = true then
          some (bitsToNat p.bits * 2 ^ s) else none) := by
  unfold GaloisPolynomial.multShiftedVals
  rw [List.map_filterMap]
  apply filterMap_congr_mem
  intro s hs
  rw [List.mem_range] at hs
  rw [bitsToNat_testBit q.bits hqbool s (by omega), hqb]
  by_cases hc : q.bits.getD (p.length - 1 - s) 0 = 1
  · rw [if_pos hc, if_pos (by simpa using hc)]
    show some _ = some _
    congr 1
    rw [bitsToNat_append, bitsToNat_append, bitsToNat_replicate_zero,
      bitsToNat_replicate_zero, List.length_replicate]
    ring
  · rw [if_neg hc, if_neg (by simpa using hc)]
    rfl

theorem foldr_xor_filterMap_testBit (n : Nat) :
    ∀ a b : Nat,
    ((List.range n).filterMap (fun s =>
        if b.testBit s = true then some (a * 2 ^ s) else none)).foldr
      (fun v acc => v ^^^ acc) 0 = clmulN n a b := by
  induction n with
  | zero => intro a b; rfl
  | succ n ih =>
    intro a b
    rw [List.range_succ_eq_map, List.filterMap_cons, List.filterMap_map]
    have htail : (List.filterMap ((fun s =>
        if b.testBit s = true then some (a * 2 ^ s) else none) ∘ Nat.succ)
          (List.range n)) =
        (List.range n).filterMap (fun s =>
          if (b / 2).testBit s = true then some ((2 * a) * 2 ^ s) else none) := by
      apply filterMap_congr_mem
      intro s _
      simp only [Function.comp_apply]
      have hbit : b.testBit (s + 1) = (b / 2).testBit s := by
        rw [Nat.testBit_succ]
      rw [hbit]
      by_cases hc : (b / 2).testBit s = true
      · rw [if_pos hc, if_pos hc]
        congr 1
        rw [pow_succ]
        ring
      · rw [if_neg hc, if_neg hc]
    rw [Nat.testBit_zero, clmulN]
    by_cases hb0 : b % 2 = 1
    · rw [if_pos (by simp [hb0]), if_pos hb0, List.foldr_cons, htail, ih]
      norm_num
    · rw [if_neg (by simp [hb0]), if_neg hb0, htail, ih]
      exact (Nat.zero_xor _).symm

theorem multIntermediate_spec (p q : GaloisPolynomial)
    (hpb : p.bits.length = p.length) (hpbool : ∀ b ∈ p.bits, b ≤ 1)
    (hqb : q.bits.length = p.length) (hqbool : ∀ b ∈ q.bits, b ≤ 1) :
    (GaloisPolynomial.multIntermediate p q).length = p.length * 2 ∧
    (∀ b ∈ GaloisPolynomial.multIntermediate p q, b ≤ 1) ∧
    bitsToNat (GaloisPolynomial.multIntermediate p q) =
      clmulN p.length (bitsToNat p.bits) (bitsToNat q.bits) := by
  have hrows := multShiftedVals_all p q hpb hpbool
  have hpar : GaloisPolynomial.multIntermediate p q =
      (GaloisPolynomial.multShiftedVals p q).foldr
        (fun sv acc => xorRange (p.length * 2) sv acc)
        (List.replicate (p.length * 2) 0) := by
    unfold GaloisPolynomial.multIntermediate
    exact parityMap_eq_foldr _ _ (fun sv hs => (hrows sv hs).2)
  obtain ⟨hlen, hbool, hval⟩ := foldr_xorRange_facts (p.length * 2)
    (GaloisPolynomial.multShiftedVals p q) hrows
  rw [hpar]
  refine ⟨hlen, hbool, ?_⟩
  rw [hval]
  have hmap : (GaloisPolynomial.multShiftedVals p q).foldr
      (fun sv acc => bitsToNat sv ^^^ acc) 0 =
      ((GaloisPolynomial.multShiftedVals p q).map bitsToNat).foldr
        (fun v acc => v ^^^ acc) 0 := by
    rw [List.foldr_map]
  rw [hmap, multShiftedVals_map_bitsToNat p q hpb hqb hqbool,
    foldr_xor_filterMap_testBit]

/-! ### The reduction loop -/

theorem lt_of_testBit_false (w d : Nat) (hw : w < 2 ^ (d + 1))
    (hb : w.testBit d = false) : w < 2 ^ d := by
  rw [Nat.testBit_to_div_mod] at hb
  have hp : (2 : Nat) ^ (d + 1) = 2 ^ d * 2 := pow_succ 2 d
  have h1 : w / 2 ^ d < 2 := by
    apply Nat.div_lt_of_lt_mul
    omega
  have h2 : w / 2 ^ d % 2 ≠ 1 := by simpa using hb
  have h3 : w / 2 ^ d = 0 := by
    generalize hgen : w / 2 ^ d = a at h1 h2
    interval_cases a
    · rfl
    · simp at h2
  have h4 := Nat.mod_add_div w (2 ^ d)
  rw [h3] at h4
  have h5 := Nat.mod_lt w (show 0 < 2 ^ d from Nat.pos_pow_of_pos d
    (by norm_num))
  omega

theorem gf2ReduceStep_lt (n m : Nat) (hm : m < 2 ^ (n + 1))
    (hmb : m.testBit n = true) :
    ∀ (j y : Nat), y < 2 ^ (n + j) → gf2ReduceStep n m j y < 2 ^ n := by
  intro j
  induction j with
  | zero => intro y hy; simpa using hy
  | succ j ih =>
    intro y hy
    rw [gf2ReduceStep]
    apply ih
    by_cases hb : y.testBit (n + j) = true
    · rw [if_pos hb]
      have hshift : m <<< j < 2 ^ (n + j + 1) := by
        rw [Nat.shiftLeft_eq]
        calc m * 2 ^ j < 2 ^ (n + 1) * 2 ^ j :=
              mul_lt_mul_of_pos_right hm (pow_pos (by norm_num) j)
          _ = 2 ^ (n + j + 1) := by
              rw [← pow_add]
              congr 1
              omega
      have hxlt : y ^^^ (m <<< j) < 2 ^ (n + j + 1) :=
        Nat.xor_lt_two_pow (by simpa [Nat.add_assoc] using hy) hshift
      apply lt_of_testBit_false _ _ hxlt
      rw [Nat.testBit_xor, hb, Nat.testBit_shiftLeft]
      have : n + j - j = n := by omega
      simp [this, hmb]
    · rw [if_neg hb]
      exact lt_of_testBit_false _ _ (by simpa [Nat.add_assoc] using hy)
        (by simpa using hb)

theorem clmulN_lt (n : Nat) :
    ∀ (j a b : Nat), a < 2 ^ j → clmulN n a b < 2 ^ (j + n) := by
  induction n with
  | zero => intro j a b _; simpa [clmulN] using Nat.pos_pow_of_pos j (by norm_num)
  | succ n ih =>
    intro j a b ha
    rw [clmulN]
    apply Nat.xor_lt_two_pow
    · have : a < 2 ^ (j + (n + 1)) :=
        lt_of_lt_of_le ha (Nat.pow_le_pow_right (by norm_num) (by omega))
      split <;> [exact this; exact Nat.pos_pow_of_pos _ (by norm_num)]
    · have h2a : 2 * a < 2 ^ (j + 1) := by
        rw [pow_succ]
        omega
      have := ih (j + 1) (2 * a) (b / 2) h2a
      exact lt_of_lt_of_le this (Nat.pow_le_pow_right (by norm_num) (by omega))

theorem take_eq_replicate_zero (L : List Nat) (k : Nat)
    (hb : ∀ b ∈ L, b ≤ 1) (hk : k ≤ L.length)
    (hv : bitsToNat L < 2 ^ (L.length - k)) :
    L.take k = List.replicate k 0 := by
  apply List.ext_getElem
  · simp [hk]
  · intro t h1 h2
    simp only [List.getElem_replicate]
    rw [List.getElem_take]
    have ht : t < k := by simpa using h2
    have htL : t < L.length := by omega
    have hbit : (bitsToNat L).testBit (L.length - 1 - t) = false := by
      apply testBit_high_of_lt
      exact lt_of_lt_of_le hv (Nat.pow_le_pow_right (by norm_num) (by omega))
    rw [bitsToNat_testBit L hb _ (by omega)] at hbit
    have hidx : L.length - 1 - (L.length - 1 - t) = t := by omega
    rw [hidx] at hbit
    have hne : ¬ L.getD t 0 = 1 := by simpa using hbit
    have hle : L.getD t 0 ≤ 1 := getD_le_one L hb t
    have h0 : L.getD t 0 = 0 := by omega
    rw [List.getD_eq_getElem L 0 htL] at h0
    exact h0

theorem bitsToNat_drop_of_take_zero (L : List Nat) (k : Nat)
    (h : L.take k = List.replicate k 0) :
    bitsToNat (L.drop k) = bitsToNat L := by
  conv_rhs => rw [← List.take_append_drop k L]
  rw [bitsToNat_append, h, bitsToNat_replicate_zero]
  ring

theorem reduce_fold_corr (n : Nat) (d : List Nat) (m : Nat)
    (hdl : d.length = n + 1) (hdb : ∀ b ∈ d, b ≤ 1)
    (hdv : bitsToNat d = m) :
    ∀ (j : Nat) (L : List Nat), j ≤ n → L.length = n * 2 →
      (∀ b ∈ L, b ≤ 1) →
      ((List.range' (n - j) j).foldl (fun ip i =>
          if ip.getD i 0 = 1 then
            xorRange (n * 2) ip (List.replicate i 0 ++ d ++
              List.replicate (n * 2 - (n + 1) - i) 0)
          else ip) L).length = n * 2 ∧
      (∀ b ∈ (List.range' (n - j) j).foldl (fun ip i =>
          if ip.getD i 0 = 1 then
            xorRange (n * 2) ip (List.replicate i 0 ++ d ++
              List.replicate (n * 2 - (n + 1) - i) 0)
          else ip) L, b ≤ 1) ∧
      bitsToNat ((List.range' (n - j) j).foldl (fun ip i =>
          if ip.getD i 0 = 1 then
            xorRange (n * 2) ip (List.replicate i 0 ++ d ++
              List.replicate (n * 2 - (n + 1) - i) 0)
          else ip) L) = gf2ReduceStep n m j (bitsToNat L) := by
  intro j
  induction j with
  | zero =>
    intro L _ hL hLb
    exact ⟨by simpa using hL, by simpa using hLb, by simp [gf2ReduceStep]⟩
  | succ j ih =>
    intro L hj hL hLb
    have hn1 : 1 ≤ n := by omega
    have hrange : List.range' (n - (j + 1)) (j + 1) =
        (n - j - 1) :: List.range' (n - j) j := by
      rw [List.range'_succ]
      have h1 : n - (j + 1) = n - j - 1 := by omega
      rw [h1]
      have h2 : n - j - 1 + 1 = n - j := by omega
      rw [h2]
    rw [hrange, List.foldl_cons, gf2ReduceStep]
    set i := n - j - 1 with hi
    have hi2n : i < n * 2 := by omega
    have hcond : (L.getD i 0 = 1) ↔ ((bitsToNat L).testBit (n + j) = true) := by
      rw [bitsToNat_testBit L hLb (n + j) (by omega), hL]
      have : n * 2 - 1 - (n + j) = i := by omega
      rw [this]
      simp
    by_cases hc : L.getD i 0 = 1
    · rw [if_pos hc]
      have htb : (bitsToNat L).testBit (n + j) = true := hcond.mp hc
      rw [if_pos htb]
      have hjeq : n * 2 - (n + 1) - i = j := by omega
      set sh := List.replicate i 0 ++ d ++
        List.replicate (n * 2 - (n + 1) - i) 0 with hsh
      have hshl : sh.length = n * 2 := by
        simp only [hsh, List.length_append, List.length_replicate, hdl]
        omega
      have hshb : ∀ b ∈ sh, b ≤ 1 := by
        intro b hb
        simp only [hsh, List.mem_append, List.mem_replicate] at hb
        rcases hb with (hb | hb) | hb
        · omega
        · exact hdb b hb
        · omega
      have hshv : bitsToNat sh = m <<< j := by
        rw [hsh, bitsToNat_append, bitsToNat_append,
          bitsToNat_replicate_zero, bitsToNat_replicate_zero,
          List.length_replicate, hjeq, hdv, Nat.shiftLeft_eq]
        ring
      have hL2l := length_xorRange (n * 2) L sh
      have hL2b := xorRange_le_one (n * 2) L sh hLb hshb
      have hL2v : bitsToNat (xorRange (n * 2) L sh) =
          bitsToNat L ^^^ m <<< j := by
        rw [bitsToNat_xorRange (n * 2) L sh hL hshl hLb hshb, hshv]
      obtain ⟨r1, r2, r3⟩ := ih (xorRange (n * 2) L sh) (by omega) hL2l hL2b
      exact ⟨r1, r2, by rw [r3, hL2v]⟩
    · rw [if_neg hc]
      have htb : (bitsToNat L).testBit (n + j) = false := by
        cases hbool : (bitsToNat L).testBit (n + j)
        · rfl
        · exact absurd (hcond.mpr hbool) hc
      rw [htb]
      simp only [Bool.false_eq_true, if_false]
      exact ih L (by omega) hL hLb

theorem multReduced_spec (p q : GaloisPolynomial)
    (hpb : p.bits.length = p.length) (hpbool : ∀ b ∈ p.bits, b ≤ 1)
    (hqb : q.bits.length = p.length) (hqbool : ∀ b ∈ q.bits, b ≤ 1)
    (hine : p.irr_pol ≠ []) (himax : p.irr_pol.foldl max 0 = p.length) :
    (GaloisPolynomial.multReduced p q).length = p.length * 2 ∧
    (∀ b ∈ GaloisPolynomial.multReduced p q, b ≤ 1) ∧
    bitsToNat (GaloisPolynomial.multReduced p q) =
      gfSpecMult p.length p.irr_pol (bitsToNat p.bits) (bitsToNat q.bits) ∧
    bitsToNat (GaloisPolynomial.multReduced p q) < 2 ^ p.length := by
  set n := p.length with hn
  have he : ∀ e ∈ p.irr_pol, e ≤ n := by
    intro e hx
    have := (foldl_max_le p.irr_pol 0).2 e hx
    omega
  obtain ⟨hdl, hdb, hdv⟩ := densePoly_spec p.irr_pol n he
  obtain ⟨hil, hib, hiv⟩ := multIntermediate_spec p q hpb hpbool hqb hqbool
  have hm_lt : polyOfExps p.irr_pol < 2 ^ (n + 1) := polyOfExps_lt _ n he
  have hm_bit : (polyOfExps p.irr_pol).testBit n = true := by
    rw [testBit_polyOfExps]
    exact decide_eq_true (max_exp_mem p.irr_pol n hine himax)
  have hred : GaloisPolynomial.multReduced p q =
      (List.range' (n - n) n).foldl (fun ip i =>
        if ip.getD i 0 = 1 then
          xorRange (n * 2) ip (List.replicate i 0 ++ densePoly n p.irr_pol ++
            List.replicate (n * 2 - (n + 1) - i) 0)
        else ip) (GaloisPolynomial.multIntermediate p q) := by
    unfold GaloisPolynomial.multReduced
    rw [← hn]
    have h1 : n * 2 - n = n := by omega
    have h2 : n - n = 0 := by omega
    rw [h1, h2, List.range_eq_range']
  obtain ⟨r1, r2, r3⟩ := reduce_fold_corr n (densePoly n p.irr_pol)
    (polyOfExps p.irr_pol) hdl hdb hdv n
    (GaloisPolynomial.multIntermediate p q) (le_refl n) hil hib
  rw [hred]
  refine ⟨r1, r2, ?_, ?_⟩
  · rw [r3, hiv]
    rfl
  · rw [r3, hiv]
    apply gf2ReduceStep_lt n _ hm_lt hm_bit
    have ha : bitsToNat p.bits < 2 ^ n := by
      rw [← hpb]
      exact bitsToNat_lt_two_pow _ hpbool
    exact clmulN_lt n n _ _ ha

theorem irreducible_polynomials_ne_nil (n : Nat) (l : List Nat)
    (h : irreducible_polynomials n = some l) : l ≠ [] := by
  unfold irreducible_polynomials at h
  split_ifs at h
  all_goals try (injection h with h2; subst h2; simp)

theorem init_eq_some (num_bits v : Nat) (irr : List Nat)
    (hirr : irr ≠ []) (hmax : irr.foldl max 0 = num_bits)
    (hv : v < 2 ^ num_bits) :
    GaloisPolynomial.init num_bits v irr =
      some ⟨num_bits, irr, natToBits num_bits v⟩ := by
  unfold GaloisPolynomial.init
  rw [if_neg hirr]
  simp only [Option.some_bind]
  rw [if_pos ⟨hv, hmax⟩]

theorem init_facts (num_bits v : Nat) (irr : List Nat)
    (p : GaloisPolynomial)
    (h : GaloisPolynomial.init num_bits v irr = some p) :
    p.length = num_bits ∧ p.bits = natToBits num_bits v ∧
    v < 2 ^ num_bits ∧ p.irr_pol ≠ [] ∧
    p.irr_pol.foldl max 0 = num_bits ∧
    (irr ≠ [] → p.irr_pol = irr) ∧
    (irr = [] → irreducible_polynomials num_bits = some p.irr_pol) := by
  unfold GaloisPolynomial.init at h
  by_cases hirr : irr = []
  · rw [if_pos hirr] at h
    rcases htab : irreducible_polynomials num_bits with _ | l
    · rw [htab] at h
      exact absurd h (by simp)
    · rw [htab] at h
      simp only [Option.some_bind] at h
      by_cases hcond : v < 2 ^ num_bits ∧ l.foldl max 0 = num_bits
      · rw [if_pos hcond] at h
        obtain ⟨rfl⟩ := Option.some_inj.mp h
        exact ⟨rfl, rfl, hcond.1, irreducible_polynomials_ne_nil _ _ htab,
          hcond.2, fun hc => absurd hirr hc, fun _ => rfl⟩
      · rw [if_neg hcond] at h
        exact absurd h (by simp)
  · rw [if_neg hirr] at h
    simp only [Option.some_bind] at h
    by_cases hcond : v < 2 ^ num_bits ∧ irr.foldl max 0 = num_bits
    · rw [if_pos hcond] at h
      obtain ⟨rfl⟩ := Option.some_inj.mp h
      exact ⟨rfl, rfl, hcond.1, hirr, hcond.2, fun _ => rfl,
        fun hc => absurd hc hirr⟩
    · rw [if_neg hcond] at h
      exact absurd h (by simp)

theorem init_inv (num_bits v : Nat) (irr : List Nat) (p : GaloisPolynomial)
    (h : GaloisPolynomial.init num_bits v irr = some p) : GPInv p := by
  obtain ⟨hlen, hbits, hv, hne, hmax, _, _⟩ := init_facts num_bits v irr p h
  refine ⟨?_, ?_, hne, by rw [hlen]; exact hmax⟩
  · rw [hbits, hlen]
    exact length_natToBits _ _
  · rw [hbits]
    exact natToBits_le_one _ _

theorem mult_spec (p q : GaloisPolynomial) (hp : GPInv p) (hq : GPInv q)
    (hlen : p.length = q.length) :
    GaloisPolynomial.mult p q = some ⟨p.length, p.irr_pol,
      (GaloisPolynomial.multReduced p q).drop (p.length * 2 - p.length)⟩ ∧
    GaloisPolynomial.intval ⟨p.length, p.irr_pol,
      (GaloisPolynomial.multReduced p q).drop (p.length * 2 - p.length)⟩ =
      gfSpecMult p.length p.irr_pol (bitsToNat p.bits) (bitsToNat q.bits) ∧
    GPInv ⟨p.length, p.irr_pol,
      (GaloisPolynomial.multReduced p q).drop (p.length * 2 - p.length)⟩ ∧
    (GaloisPolynomial.multReduced p q).take (p.length * 2 - p.length) =
      List.replicate (p.length * 2 - p.length) 0 := by
  obtain ⟨hpb, hpbool, hpne, hpmax⟩ := hp
  obtain ⟨hqb, hqbool, _, _⟩ := hq
  have hqb2 : q.bits.length = p.length := by rw [hqb, ← hlen]
  obtain ⟨hrl, hrb, hrv, hrlt⟩ := multReduced_spec p q hpb hpbool hqb2
    hqbool hpne hpmax
  have hnn : p.length * 2 - p.length = p.length := by omega
  have htake : (GaloisPolynomial.multReduced p q).take
      (p.length * 2 - p.length) =
      List.replicate (p.length * 2 - p.length) 0 := by
    apply take_eq_replicate_zero _ _ hrb (by omega)
    rw [hrl]
    have : p.length * 2 - (p.length * 2 - p.length) = p.length := by omega
    rw [this]
    exact hrlt
  have hdropl : ((GaloisPolynomial.multReduced p q).drop
      (p.length * 2 - p.length)).length = p.length := by
    rw [List.length_drop, hrl]
    omega
  have hdropb : ∀ b ∈ (GaloisPolynomial.multReduced p q).drop
      (p.length * 2 - p.length), b ≤ 1 :=
    fun b hb => hrb b (List.mem_of_mem_drop hb)
  have hdropv : bitsToNat ((GaloisPolynomial.multReduced p q).drop
      (p.length * 2 - p.length)) =
      gfSpecMult p.length p.irr_pol (bitsToNat p.bits) (bitsToNat q.bits) := by
    rw [bitsToNat_drop_of_take_zero _ _ htake, hrv]
  have hsv : (GaloisPolynomial.multShiftedVals p q).all
      (fun sv => sv.length = p.length * 2) = true := by
    rw [List.all_eq_true]
    intro sv hsv
    exact decide_eq_true (multShiftedVals_all p q hpb hpbool sv hsv).1
  have hinit := init_eq_some p.length 0 p.irr_pol hpne hpmax
    (Nat.pos_pow_of_pos _ (by norm_num))
  constructor
  · unfold GaloisPolynomial.mult
    rw [if_pos hlen, if_pos hsv, if_pos htake, hinit]
    rfl
  · exact ⟨hdropv, ⟨hdropl, hdropb, hpne, hpmax⟩, htake⟩

theorem xor_spec (p q : GaloisPolynomial) (hp : GPInv p) (hq : GPInv q)
    (hlen : p.length = q.length) :
    GaloisPolynomial.xor p q = some ⟨p.length, p.irr_pol,
      xorRange p.length p.bits q.bits⟩ ∧
    GPInv ⟨p.length, p.irr_pol, xorRange p.length p.bits q.bits⟩ ∧
    GaloisPolynomial.intval ⟨p.length, p.irr_pol,
      xorRange p.length p.bits q.bits⟩ =
      bitsToNat p.bits ^^^ bitsToNat q.bits := by
  obtain ⟨hpb, hpbool, hpne, hpmax⟩ := hp
  obtain ⟨hqb, hqbool, _, _⟩ := hq
  have hinit := init_eq_some p.length 0 p.irr_pol hpne hpmax
    (Nat.pos_pow_of_pos _ (by norm_num))
  refine ⟨?_, ⟨length_xorRange _ _ _,
    xorRange_le_one _ _ _ hpbool hqbool, hpne, hpmax⟩, ?_⟩
  · unfold GaloisPolynomial.xor
    rw [if_pos hlen, hinit]
    rfl
  · show bitsToNat (xorRange p.length p.bits q.bits) = _
    exact bitsToNat_xorRange p.length p.bits q.bits hpb
      (by rw [hqb, ← hlen]) hpbool hqbool

theorem init_default_spec (n v : Nat) (irrn : List Nat)
    (htab : irreducible_polynomials n = some irrn)
    (hmax : irrn.foldl max 0 = n) :
    (v < 2 ^ n → GaloisPolynomial.init n v [] =
       some ⟨n, irrn, natToBits n v⟩ ∧
       GaloisPolynomial.intval ⟨n, irrn, natToBits n v⟩ = v) ∧
    (2 ^ n ≤ v → GaloisPolynomial.init n v [] = none) := by
  constructor
  · intro hv
    constructor
    · unfold GaloisPolynomial.init
      rw [if_pos rfl, htab, Option.some_bind, if_pos ⟨hv, hmax⟩]
    · show bitsToNat (natToBits n v) = v
      rw [bitsToNat_natToBits, Nat.mod_eq_of_lt hv]
  · intro hv
    unfold GaloisPolynomial.init
    rw [if_pos rfl, htab, Option.some_bind,
      if_neg (fun hc => absurd hc.1 (by omega))]

theorem mult_default_spec (n a b : Nat) (irrn : List Nat)
    (htab : irreducible_polynomials n = some irrn)
    (hmax : irrn.foldl max 0 = n) (ha : a < 2 ^ n) (hb : b < 2 ^ n) :
    ∃ pa pb pc : GaloisPolynomial,
      GaloisPolynomial.init n a [] = some pa ∧
      GaloisPolynomial.init n b [] = some pb ∧
      pa.mult pb = some pc ∧
      GaloisPolynomial.intval pc = gfSpecMult n irrn a b := by
  obtain ⟨hA, _⟩ := (init_default_spec n a irrn htab hmax).1 ha
  obtain ⟨hB, _⟩ := (init_default_spec n b irrn htab hmax).1 hb
  have hinvA : GPInv ⟨n, irrn, natToBits n a⟩ := init_inv n a [] _ hA
  have hinvB : GPInv ⟨n, irrn, natToBits n b⟩ := init_inv n b [] _ hB
  obtain ⟨hmul, hval, _, _⟩ := mult_spec ⟨n, irrn, natToBits n a⟩
    ⟨n, irrn, natToBits n b⟩ hinvA hinvB rfl
  refine ⟨_, _, _, hA, hB, hmul, ?_⟩
  rw [hval]
  show gfSpecMult n irrn (bitsToNat (natToBits n a))
    (bitsToNat (natToBits n b)) = _
  rw [bitsToNat_natToBits, bitsToNat_natToBits, Nat.mod_eq_of_lt ha,
    Nat.mod_eq_of_lt hb]

/-- Claim C7: for every supported bit-width n and every value v below
2^n, construction succeeds and intval returns exactly v; for every v
of 2^n or more, construction fails (the RangeError assert). -/
theorem claim_C7 (n v : Nat) (hn : n ∈ [8, 64, 128, 256, 512]) :
    (v < 2 ^ n → ∃ p, GaloisPolynomial.init n v [] = some p ∧
      GaloisPolynomial.intval p = v) ∧
    (2 ^ n ≤ v → GaloisPolynomial.init n v [] = none) := by
  fin_cases hn
  · exact ⟨fun hv =>
        ⟨_, ((init_default_spec 8 v [8, 4, 3, 1, 0] rfl (by decide)).1 hv).1,
          ((init_default_spec 8 v [8, 4, 3, 1, 0] rfl (by decide)).1 hv).2⟩,
      (init_default_spec 8 v [8, 4, 3, 1, 0] rfl (by decide)).2⟩
  · exact ⟨fun hv =>
        ⟨_, ((init_default_spec 64 v [64, 4, 3, 1, 0] rfl (by decide)).1 hv).1,
          ((init_default_spec 64 v [64, 4, 3, 1, 0] rfl (by decide)).1 hv).2⟩,
      (init_default_spec 64 v [64, 4, 3, 1, 0] rfl (by decide)).2⟩
  · exact ⟨fun hv =>
        ⟨_, ((init_default_spec 128 v [128, 7, 2, 1, 0] rfl (by decide)).1 hv).1,
          ((init_default_spec 128 v [128, 7, 2, 1, 0] rfl (by decide)).1 hv).2⟩,
      (init_default_spec 128 v [128, 7, 2, 1, 0] rfl (by decide)).2⟩
  · exact ⟨fun hv =>
        ⟨_, ((init_default_spec 256 v [256, 10, 5, 2, 0] rfl (by decide)).1 hv).1,
          ((init_default_spec 256 v [256, 10, 5, 2, 0] rfl (by decide)).1 hv).2⟩,
      (init_default_spec 256 v [256, 10, 5, 2, 0] rfl (by decide)).2⟩
  · exact ⟨fun hv =>
        ⟨_, ((init_default_spec 512 v [512, 8, 5, 2, 0] rfl (by decide)).1 hv).1,
          ((init_default_spec 512 v [512, 8, 5, 2, 0] rfl (by decide)).1 hv).2⟩,
      (init_default_spec 512 v [512, 8, 5, 2, 0] rfl (by decide)).2⟩

/-- Witness for claim C7 at the concrete width 8: value 200 round
trips through construction and intval, and value 300 is rejected. -/
theorem claim_C7_witness :
    ((8 : Nat) ∈ [8, 64, 128, 256, 512] ∧ 200 < 2 ^ 8 ∧ 2 ^ 8 ≤ 300) ∧
    (∃ p, GaloisPolynomial.init 8 200 [] = some p ∧
      GaloisPolynomial.intval p = 200) ∧
    GaloisPolynomial.init 8 300 [] = none := by
  refine ⟨by decide, ?_, ?_⟩
  · exact (claim_C7 8 200 (by decide)).1 (by decide)
  · exact (claim_C7 8 300 (by decide)).2 (by decide)

/-- Claim C9: construction establishes the representation invariant
(bit vector of exactly the declared width, entries 0 or 1, value
below 2^width), and xor and mult preserve it, keeping the receiving
operand's bit-width and irreducible polynomial. -/
theorem claim_C9 :
    (∀ (num_bits v : Nat) (irr : List Nat) (p : GaloisPolynomial),
      GaloisPolynomial.init num_bits v irr = some p →
      GPInv p ∧ p.length = num_bits ∧
        GaloisPolynomial.intval p < 2 ^ num_bits) ∧
    (∀ a b c : GaloisPolynomial, GPInv a → GPInv b →
      GaloisPolynomial.xor a b = some c →
      GPInv c ∧ c.length = a.length ∧ c.irr_pol = a.irr_pol) ∧
    (∀ a b c : GaloisPolynomial, GPInv a → GPInv b →
      GaloisPolynomial.mult a b = some c →
      GPInv c ∧ c.length = a.length ∧ c.irr_pol = a.irr_pol) := by
  refine ⟨?_, ?_, ?_⟩
  · intro num_bits v irr p h
    have hinv := init_inv num_bits v irr p h
    obtain ⟨hlen, _, _, _, _, _, _⟩ := init_facts num_bits v irr p h
    refine ⟨hinv, hlen, ?_⟩
    have := bitsToNat_lt_two_pow p.bits hinv.2.1
    rw [hinv.1, hlen] at this
    exact this
  · intro a b c ha hb h
    by_cases hlen : a.length = b.length
    · obtain ⟨heq, hinv, _⟩ := xor_spec a b ha hb hlen
      rw [heq] at h
      obtain rfl := Option.some_inj.mp h
      exact ⟨hinv, rfl, rfl⟩
    · unfold GaloisPolynomial.xor at h
      rw [if_neg hlen] at h
      exact absurd h (by simp)
  · intro a b c ha hb h
    by_cases hlen : a.length = b.length
    · obtain ⟨heq, _, hinv, _⟩ := mult_spec a b ha hb hlen
      rw [heq] at h
      obtain rfl := Option.some_inj.mp h
      exact ⟨hinv, rfl, rfl⟩
    · unfold GaloisPolynomial.mult at h
      rw [if_neg hlen] at h
      exact absurd h (by simp)

/-- Witness for claim C9: concrete width-8 elements built from 2 and
3; their xor and product carry the invariant, the width and the
polynomial. -/
theorem claim_C9_witness :
    (GaloisPolynomial.init 8 2 [] =
      some ⟨8, [8, 4, 3, 1, 0], natToBits 8 2⟩) ∧
    (GPInv ⟨8, [8, 4, 3, 1, 0], natToBits 8 2⟩ ∧
     GaloisPolynomial.intval ⟨8, [8, 4, 3, 1, 0], natToBits 8 2⟩ < 2 ^ 8) := by
  refine ⟨by decide, ?_⟩
  have h := (claim_C9.1) 8 2 [] ⟨8, [8, 4, 3, 1, 0], natToBits 8 2⟩ (by decide)
  exact ⟨h.1, h.2.2⟩

/-- Claim C3: for same-width elements whose configured irreducible
polynomial has highest exponent equal to the bit-width, the reduction
loop of mult zeroes the upper n bits of the 2n-bit intermediate, so
the internal assertion before truncation never fails and mult
succeeds. -/
theorem claim_C3 (a b : GaloisPolynomial) (ha : GPInv a) (hb : GPInv b)
    (hl : a.length = b.length) :
    (GaloisPolynomial.multReduced a b).take (a.length * 2 - a.length) =
      List.replicate (a.length * 2 - a.length) 0 ∧
    (GaloisPolynomial.mult a b).isSome := by
  obtain ⟨h1, _, _, h4⟩ := mult_spec a b ha hb hl
  exact ⟨h4, by rw [h1]; rfl⟩

/-- Witness for claim C3 on the concrete width-8 elements for 0x57
and 0x83. -/
theorem claim_C3_witness :
    (GPInv ⟨8, [8, 4, 3, 1, 0], natToBits 8 87⟩ ∧
     GPInv ⟨8, [8, 4, 3, 1, 0], natToBits 8 131⟩) ∧
    ((GaloisPolynomial.multReduced ⟨8, [8, 4, 3, 1, 0], natToBits 8 87⟩
        ⟨8, [8, 4, 3, 1, 0], natToBits 8 131⟩).take (8 * 2 - 8) =
      List.replicate (8 * 2 - 8) 0 ∧
     (GaloisPolynomial.mult ⟨8, [8, 4, 3, 1, 0], natToBits 8 87⟩
        ⟨8, [8, 4, 3, 1, 0], natToBits 8 131⟩).isSome) := by
  refine ⟨by decide, ?_⟩
  exact claim_C3 ⟨8, [8, 4, 3, 1, 0], natToBits 8 87⟩
    ⟨8, [8, 4, 3, 1, 0], natToBits 8 131⟩ (by decide) (by decide) rfl

/-- Claim C2: at each of the five supported widths with its table
polynomial, mult computes the carry-less product reduced modulo the
irreducible polynomial -- the GF(2^n) product -- for all field
elements. -/
theorem claim_C2 (n a b : Nat) (hn : n ∈ [8, 64, 128, 256, 512])
    (ha : a < 2 ^ n) (hb : b < 2 ^ n) :
    ∃ (irr : List Nat) (pa pb pc : GaloisPolynomial),
      irreducible_polynomials n = some irr ∧
      GaloisPolynomial.init n a [] = some pa ∧
      GaloisPolynomial.init n b [] = some pb ∧
      GaloisPolynomial.mult pa pb = some pc ∧
      GaloisPolynomial.intval pc = gfSpecMult n irr a b := by
  fin_cases hn
  · obtain ⟨pa, pb, pc, h1, h2, h3, h4⟩ :=
      mult_default_spec 8 a b [8, 4, 3, 1, 0] rfl (by decide) ha hb
    exact ⟨[8, 4, 3, 1, 0], pa, pb, pc, rfl, h1, h2, h3, h4⟩
  · obtain ⟨pa, pb, pc, h1, h2, h3, h4⟩ :=
      mult_default_spec 64 a b [64, 4, 3, 1, 0] rfl (by decide) ha hb
    exact ⟨[64, 4, 3, 1, 0], pa, pb, pc, rfl, h1, h2, h3, h4⟩
  · obtain ⟨pa, pb, pc, h1, h2, h3, h4⟩ :=
      mult_default_spec 128 a b [128, 7, 2, 1, 0] rfl (by decide) ha hb
    exact ⟨[128, 7, 2, 1, 0], pa, pb, pc, rfl, h1, h2, h3, h4⟩
  · obtain ⟨pa, pb, pc, h1, h2, h3, h4⟩ :=
      mult_default_spec 256 a b [256, 10, 5, 2, 0] rfl (by decide) ha hb
    exact ⟨[256, 10, 5, 2, 0], pa, pb, pc, rfl, h1, h2, h3, h4⟩
  · obtain ⟨pa, pb, pc, h1, h2, h3, h4⟩ :=
      mult_default_spec 512 a b [512, 8, 5, 2, 0] rfl (by decide) ha hb
    exact ⟨[512, 8, 5, 2, 0], pa, pb, pc, rfl, h1, h2, h3, h4⟩

/-- Witness for claim C2, the spec's concrete sanity vector: width 8,
polynomial exponents [8,4,3,1,0], 0x02 times 0x03 equals 0x06. -/
theorem claim_C2_witness :
    ((8 : Nat) ∈ [8, 64, 128, 256, 512] ∧ 2 < 2 ^ 8 ∧ 3 < 2 ^ 8) ∧
    (∃ pa pb pc : GaloisPolynomial,
      GaloisPolynomial.init 8 2 [] = some pa ∧
      GaloisPolynomial.init 8 3 [] = some pb ∧
      GaloisPolynomial.mult pa pb = some pc ∧
      GaloisPolynomial.intval pc = 6) := by
  refine ⟨by decide, ?_⟩
  obtain ⟨irr, pa, pb, pc, hirr, h1, h2, h3, h4⟩ :=
    claim_C2 8 2 3 (by decide) (by decide) (by decide)
  refine ⟨pa, pb, pc, h1, h2, h3, ?_⟩
  rw [h4]
  have hirr8 : irr = [8, 4, 3, 1, 0] := by
    have : irreducible_polynomials 8 = some [8, 4, 3, 1, 0] := rfl
    rw [this] at hirr
    exact (Option.some_inj.mp hirr).symm
  rw [hirr8]
  decide

/-! ### Mode helper lemmas -/

theorem length_natToBytesBE (n : Nat) : ∀ v, (natToBytesBE n v).length = n := by
  induction n with
  | zero => intro v; rfl
  | succ n ih => intro v; simp [natToBytesBE, ih]

theorem length_natToBytesLE (n : Nat) : ∀ v, (natToBytesLE n v).length = n := by
  induction n with
  | zero => intro v; rfl
  | succ n ih => intro v; simp [natToBytesLE, ih]

theorem fromBytesLE_natToBytesLE (n : Nat) :
    ∀ v, v < 256 ^ n → fromBytesLE (natToBytesLE n v) = v := by
  induction n with
  | zero =>
    intro v hv
    have : v = 0 := by simpa using hv
    simp [this, natToBytesLE, fromBytesLE]
  | succ n ih =>
    intro v hv
    have hdiv : v / 256 < 256 ^ n := by
      apply Nat.div_lt_of_lt_mul
      rw [← pow_succ']
      exact hv
    show v % 256 + 256 * fromBytesLE (natToBytesLE n (v / 256)) = v
    rw [ih (v / 256) hdiv]
    omega

theorem zipWith_take_right (f : Nat → Nat → Nat) :
    ∀ (l1 l2 : List Nat),
      List.zipWith f l1 (l2.take l1.length) = List.zipWith f l1 l2 := by
  intro l1
  induction l1 with
  | nil => intro l2; rfl
  | cons x l1 ih =>
    intro l2
    cases l2 with
    | nil => rfl
    | cons y l2 =>
      simp only [List.length_cons, List.take_succ_cons, List.zipWith_cons_cons]
      rw [ih l2]

theorem eof_signal_iterator_cons {α : Type} (x : α) (xs : List α) :
    eof_signal_iterator (x :: xs) =
      (x, xs.isEmpty) :: eof_signal_iterator xs := by
  cases xs <;> simp [eof_signal_iterator]

theorem eof_signal_iterator_length {α : Type} :
    ∀ l : List α, (eof_signal_iterator l).length = l.length := by
  intro l
  induction l with
  | nil => rfl
  | cons x xs ih =>
    rw [eof_signal_iterator_cons]
    simp [ih]

theorem eof_signal_iterator_getD {α : Type} (dflt : α) :
    ∀ (l : List α) (i : Nat), i < l.length →
      (eof_signal_iterator l).getD i (dflt, false) =
        (l.getD i dflt, decide (i + 1 = l.length)) := by
  intro l
  induction l with
  | nil => intro i hi; simp at hi
  | cons x xs ih =>
    intro i hi
    rw [eof_signal_iterator_cons]
    cases i with
    | zero =>
      cases xs with
      | nil => rfl
      | cons y l2 => simp
    | succ i =>
      have hi2 : i < xs.length := by
        simp only [List.length_cons] at hi
        omega
      show (eof_signal_iterator xs).getD i (dflt, false) = _
      rw [ih i hi2]
      simp only [List.getD_cons_succ, List.length_cons]
      rw [decide_eq_decide.mpr (by omega : i + 1 = xs.length ↔
        i + 1 + 1 = xs.length + 1)]

theorem eof_signal_iterator_append_last {α : Type} (t : α) :
    ∀ (l : List α), eof_signal_iterator (l ++ [t]) =
      l.map (fun x => (x, false)) ++ [(t, true)] := by
  intro l
  induction l with
  | nil => rfl
  | cons x l ih =>
    rw [List.cons_append, eof_signal_iterator_cons]
    have hne : (l ++ [t]).isEmpty = false := by simp
    rw [hne, ih]
    rfl

/-- Claim C10: the shared _xor helper returns a byte string of length
the minimum of its two inputs, whose entries are the pointwise xors;
a chunk xored against a longer block is silently truncated to the
chunk's length. -/
theorem claim_C10 (block1 block2 : Bytes) :
    (ModeOfOperation._xor block1 block2).length =
      min block1.length block2.length ∧
    ∀ i : Nat, i < block1.length → i < block2.length →
      (ModeOfOperation._xor block1 block2).getD i 0 =
        Nat.xor (block1.getD i 0) (block2.getD i 0) := by
  have hlen0 : (ModeOfOperation._xor block1 block2).length =
      min block1.length block2.length := by
    show (List.zipWith (fun a b => Nat.xor a b) block1 block2).length = _
    rw [List.length_zipWith]
  refine ⟨hlen0, ?_⟩
  intro i h1 h2
  have hlen : i < (ModeOfOperation._xor block1 block2).length := by
    rw [hlen0]
    omega
  rw [List.getD_eq_getElem _ 0 hlen, List.getD_eq_getElem _ 0 h1,
    List.getD_eq_getElem _ 0 h2]
  exact List.getElem_zipWith

/-- Witness for claim C10 on a 2-byte chunk against a 3-byte block:
the result has length 2 and entry 1 is the xor of the entries. -/
theorem claim_C10_witness :
    ((1 : Nat) < 2 ∧ (1 : Nat) < 3) ∧
    (ModeOfOperation._xor [1, 2] [250, 4, 5]).length = min 2 3 ∧
    (ModeOfOperation._xor [1, 2] [250, 4, 5]).getD 1 0 =
      Nat.xor ([1, 2].getD 1 0) ([250, 4, 5].getD 1 0) := by
  refine ⟨by decide, (claim_C10 [1, 2] [250, 4, 5]).1, ?_⟩
  exact (claim_C10 [1, 2] [250, 4, 5]).2 1 (by decide) (by decide)

/-- Claim C8: CTR decryption is literally the same procedure as CTR
encryption (src/modes.py lines 158-161 return self.encrypt). -/
theorem claim_C8 (s : CTR) (x : List Bytes) :
    CTR.decrypt s x = CTR.encrypt s x := rfl

theorem ctr_encryptLoop_spec (s : CTR) :
    ∀ (l : List (Bytes × Bool)) (counter : Nat) (out : List Bytes),
      CTR.encryptLoop s counter l = some out →
      out.length = l.length ∧
      ∀ i : Nat, i < l.length →
        out.getD i [] = ModeOfOperation._xor (l.getD i ([], false)).1
          (s.cipher.encrypt_block
            (s.nonce ++ natToBytesBE s.nonce.length (counter + i))) := by
  intro l
  induction l with
  | nil =>
    intro counter out h
    injection h with h2
    subst h2
    exact ⟨rfl, fun i hi => absurd hi (by simp)⟩
  | cons de rest ih =>
    intro counter out h
    obtain ⟨data, eof⟩ := de
    rw [CTR.encryptLoop, Option.bind_eq_some] at h
    obtain ⟨xor_block, hxb, h2⟩ := h
    rw [Option.map_eq_some'] at h2
    obtain ⟨out2, hout2, rfl⟩ := h2
    have hxbval : xor_block = s.cipher.encrypt_block
        (s.nonce ++ natToBytesBE s.nonce.length counter) := by
      unfold CTR.get_xor_block at hxb
      rw [Option.bind_eq_some] at hxb
      obtain ⟨cb, hcb, hxb2⟩ := hxb
      unfold toBytesBE at hcb
      by_cases hfit : counter < 256 ^ s.nonce.length
      · rw [if_pos hfit, Option.some_inj] at hcb
        subst hcb
        by_cases hbs : (s.nonce ++ natToBytesBE s.nonce.length counter).length =
            s.cipher.block_size
        · rw [if_pos hbs, Option.some_inj] at hxb2
          exact hxb2.symm
        · rw [if_neg hbs] at hxb2
          exact absurd hxb2 (by simp)
      · rw [if_neg hfit] at hcb
        exact absurd hcb (by simp)
    obtain ⟨ihlen, ihval⟩ := ih (counter + 1) out2 hout2
    constructor
    · simp [ihlen]
    · intro i hi
      cases i with
      | zero =>
        show ModeOfOperation._xor data _ = _
        simp only [List.getD_cons_zero]
        rw [hxbval]
        have hcz : counter + 0 = counter := rfl
        rw [hcz]
        by_cases hsh : eof = true ∧ data.length < s.cipher.block_size
        · rw [if_pos hsh]
          exact zipWith_take_right _ data _
        · rw [if_neg hsh]
      | succ i =>
        have hi2 : i < rest.length := by
          simp only [List.length_cons] at hi
          omega
        show out2.getD i [] = _
        rw [ihval i hi2]
        simp only [List.getD_cons_succ]
        have hca : counter + 1 + i = counter + (i + 1) := by omega
        rw [hca]

/-- Claim C5: in a CTR session the keystream input for block i is the
nonce followed by the big-endian counter i on block_size minus nonce
length bytes, the keystream block is encrypt_block of that input, and
output i is the chunk xored against the keystream (hence truncated to
a short final chunk's length); a session whose nonce and counter
widths do not add up to the block size fails on any nonempty input
(the ConfigurationError assert). -/
theorem claim_C5 :
    (∀ (s : CTR) (blocks out : List Bytes),
      2 * s.nonce.length = s.cipher.block_size →
      CTR.encrypt s blocks = some out →
      out.length = blocks.length ∧
      ∀ i : Nat, i < blocks.length →
        out.getD i [] = ModeOfOperation._xor (blocks.getD i [])
          (s.cipher.encrypt_block (s.nonce ++
            natToBytesBE (s.cipher.block_size - s.nonce.length) i))) ∧
    (∀ (s : CTR) (x : Bytes) (xs : List Bytes),
      2 * s.nonce.length ≠ s.cipher.block_size →
      CTR.encrypt s (x :: xs) = none) := by
  constructor
  · intro s blocks out hw henc
    obtain ⟨hlen, hval⟩ := ctr_encryptLoop_spec s (eof_signal_iterator blocks)
      0 out henc
    rw [eof_signal_iterator_length] at hlen
    refine ⟨hlen, ?_⟩
    intro i hi
    rw [hval i (by rw [eof_signal_iterator_length]; exact hi),
      eof_signal_iterator_getD [] blocks i hi]
    have hwidth : s.cipher.block_size - s.nonce.length = s.nonce.length := by
      omega
    rw [hwidth]
    simp only [Nat.zero_add]
  · intro s x xs hw
    unfold CTR.encrypt
    rw [eof_signal_iterator_cons, CTR.encryptLoop]
    have hxb : CTR.get_xor_block s 0 = none := by
      unfold CTR.get_xor_block toBytesBE
      rw [if_pos (Nat.pos_pow_of_pos _ (by norm_num)), Option.some_bind]
      rw [if_neg]
      intro hc
      rw [List.length_append, length_natToBytesBE] at hc
      omega
    rw [hxb]
    rfl


/-- Witness for claim C5: a 2-byte-block CTR session with a 1-byte
nonce xors block 0 against the keystream block of nonce plus
big-endian 0, and a 3-byte-block session with the same nonce fails. -/
theorem claim_C5_witness :
    (2 * ([7] : Bytes).length = (idCipher 2).block_size ∧
     CTR.encrypt ⟨idCipher 2, [7]⟩ [[5, 6]] = some [[2, 6]] ∧
     2 * ([7] : Bytes).length ≠ (idCipher 3).block_size) ∧
    (([[2, 6]] : List Bytes).length = ([[5, 6]] : List Bytes).length ∧
     ([[2, 6]] : List Bytes).getD 0 [] =
       ModeOfOperation._xor (([[5, 6]] : List Bytes).getD 0 [])
         ((idCipher 2).encrypt_block ([7] ++
           natToBytesBE ((idCipher 2).block_size - ([7] : Bytes).length) 0))) ∧
    CTR.encrypt ⟨idCipher 3, [7]⟩ [[1]] = none := by
  refine ⟨⟨by decide, by decide, by decide⟩, ?_, ?_⟩
  · have h := claim_C5.1 ⟨idCipher 2, [7]⟩ [[5, 6]] [[2, 6]]
      (by decide) (by decide)
    exact ⟨h.1, h.2 0 (by decide)⟩
  · exact claim_C5.2 ⟨idCipher 3, [7]⟩ [1] [] (by decide)

theorem cbc_decryptLoop_spec (c : Cipher) (ps : PaddingScheme) :
    ∀ (cs : List Bytes) (prev : Bytes),
      (CBC.decryptLoop c ps prev (eof_signal_iterator cs)).length =
        cs.length ∧
      ∀ i : Nat, i < cs.length →
        (CBC.decryptLoop c ps prev (eof_signal_iterator cs)).getD i [] =
          (if i + 1 = cs.length then
            ps.remove (ModeOfOperation._xor (c.decrypt_block (cs.getD i []))
              ((prev :: cs).getD i []))
          else ModeOfOperation._xor (c.decrypt_block (cs.getD i []))
            ((prev :: cs).getD i [])) := by
  intro cs
  induction cs with
  | nil =>
    intro prev
    exact ⟨rfl, fun i hi => absurd hi (by simp)⟩
  | cons d cs2 ih =>
    intro prev
    rw [eof_signal_iterator_cons]
    constructor
    · show (CBC.decryptLoop c ps prev _).length = _
      rw [CBC.decryptLoop]
      simp [(ih d).1]
    · intro i hi
      cases i with
      | zero =>
        rw [CBC.decryptLoop]
        cases cs2 with
        | nil => rfl
        | cons e cs3 =>
          show ModeOfOperation._xor (c.decrypt_block d) prev = _
          rw [if_neg (by simp)]
          rfl
      | succ i =>
        have hi2 : i < cs2.length := by
          simp only [List.length_cons] at hi
          omega
        rw [CBC.decryptLoop]
        show (CBC.decryptLoop c ps d (eof_signal_iterator cs2)).getD i [] = _
        rw [(ih d).2 i hi2]
        simp only [List.getD_cons_succ, List.length_cons]
        by_cases hlast : i + 1 = cs2.length
        · rw [if_pos hlast, if_pos (by omega)]
        · rw [if_neg hlast, if_neg (by omega)]

/-- Claim C6: the first element CBC.encrypt produces is the supplied
IV, byte for byte; and CBC.decrypt consumes its first input element
only as the initial chaining value -- its outputs are exactly one per
remaining element, each computed from those elements, so the IV block
is neither decrypted nor emitted. -/
theorem claim_C6 :
    (∀ (s : CBC) (blocks out : List Bytes),
      s.iv.length = s.cipher.block_size → 0 < s.cipher.block_size →
      blocks ≠ [] → CBC.encrypt s blocks = some out →
      out.head? = some s.iv) ∧
    (∀ (s : CBC) (x : Bytes) (cs : List Bytes),
      ∃ out, CBC.decrypt s (x :: cs) = some out ∧
        out.length = cs.length ∧
        ∀ i : Nat, i < cs.length →
          out.getD i [] = (if i + 1 = cs.length then
              s.padding_scheme.remove (ModeOfOperation._xor
                (s.cipher.decrypt_block (cs.getD i [])) ((x :: cs).getD i []))
            else ModeOfOperation._xor
              (s.cipher.decrypt_block (cs.getD i [])) ((x :: cs).getD i []))) := by
  constructor
  · intro s blocks out hivlen hbs hne henc
    obtain ⟨b, bs, rfl⟩ := List.exists_cons_of_ne_nil hne
    unfold CBC.encrypt at henc
    rw [eof_signal_iterator_cons, CBC.encryptLoop] at henc
    simp only [Option.getD_none, eq_self_iff_true, decide_True, if_true]
      at henc
    split_ifs at henc <;>
      first
        | (rw [Option.map_eq_some'] at henc
           obtain ⟨o2, ho2, rfl⟩ := henc
           rfl)
        | exact absurd henc (by simp)
  · intro s x cs
    refine ⟨CBC.decryptLoop s.cipher s.padding_scheme x
      (eof_signal_iterator cs), ?_, (cbc_decryptLoop_spec _ _ cs x).1,
      (cbc_decryptLoop_spec _ _ cs x).2⟩
    unfold CBC.decrypt
    rw [eof_signal_iterator_cons]

/-- Witness for claim C6: a concrete one-block CBC encryption under
an identity stub cipher and identity padding emits the IV as its
first element. -/
theorem claim_C6_witness :
    (([9, 9] : Bytes).length = (idCipher 2).block_size ∧
     0 < (idCipher 2).block_size ∧
     ([[1, 2]] : List Bytes) ≠ [] ∧
     CBC.encrypt ⟨idCipher 2, [9, 9], ⟨fun b => b, fun b => b⟩⟩ [[1, 2]] =
       some [[9, 9], [8, 11]]) ∧
    ([[9, 9], [8, 11]] : List Bytes).head? = some [9, 9] := by
  refine ⟨⟨by decide, by decide, by decide, by decide⟩, ?_⟩
  exact claim_C6.1 ⟨idCipher 2, [9, 9], ⟨fun b => b, fun b => b⟩⟩ [[1, 2]]
    [[9, 9], [8, 11]] (by decide) (by decide) (by decide) (by decide)



theorem gcm_encryptLoop_counter (s : GCM) (nb : Nat)
    (Ek0 : GaloisPolynomial) :
    ∀ (l : List (Bytes × Bool)) (rp : GaloisPolynomial) (c0 : Nat)
      (body : List Bytes) (rpF : GaloisPolynomial) (cF : Nat),
      GCM.encryptLoop s nb Ek0 rp c0 l = some (body, rpF, cF) →
      cF = c0 + body.length ∧ body.length = l.length := by
  intro l
  induction l with
  | nil =>
    intro rp c0 body rpF cF h
    injection h with h2
    obtain ⟨rfl, rfl, rfl⟩ := Prod.mk.injEq .. ▸ (by
      injection h2 with ha hb
      injection hb with hc hd
      exact ⟨ha.symm, hc.symm, hd.symm⟩ :
        body = [] ∧ rpF = rp ∧ cF = c0)
    exact ⟨by simp, rfl⟩
  | cons de rest ih =>
    intro rp c0 body rpF cF h
    obtain ⟨data, eof⟩ := de
    rw [GCM.encryptLoop, Option.bind_eq_some] at h
    obtain ⟨xb, _, h⟩ := h
    rw [Option.bind_eq_some] at h
    obtain ⟨C, _, h⟩ := h
    rw [Option.bind_eq_some] at h
    obtain ⟨t, _, h⟩ := h
    rw [Option.bind_eq_some] at h
    obtain ⟨rp2, _, h⟩ := h
    rw [Option.map_eq_some'] at h
    obtain ⟨⟨outs, rpF2, cF2⟩, hrest, heq⟩ := h
    obtain ⟨h1, h2⟩ := ih rp2 (c0 + 1) outs rpF2 cF2 hrest
    injection heq with ha hb
    injection hb with hc hd
    subst ha hc hd
    constructor
    · rw [h1]
      simp only [List.length_cons]
      omega
    · simp [h2]

theorem gcm_decryptLoop_counter (s : GCM) (nb : Nat)
    (Ek0 : GaloisPolynomial) :
    ∀ (l : List (Bytes × Bool)) (rp : GaloisPolynomial) (c0 : Nat)
      (outs : List Bytes) (rpF : GaloisPolynomial) (cF : Nat) (lastC : Bytes),
      GCM.decryptLoop s nb Ek0 rp c0 l = some (outs, rpF, cF, lastC) →
      cF = c0 + outs.length := by
  intro l
  induction l with
  | nil =>
    intro rp c0 outs rpF cF lastC h
    exact absurd h (by rw [GCM.decryptLoop]; simp)
  | cons de rest ih =>
    intro rp c0 outs rpF cF lastC h
    obtain ⟨ciphertext, eof⟩ := de
    rw [GCM.decryptLoop] at h
    by_cases heof : eof = true
    · rw [if_pos heof] at h
      injection h with h2
      injection h2 with ha hb
      injection hb with hc hd
      injection hd with he hf
      subst ha hc he hf
      simp
    · rw [if_neg heof, Option.bind_eq_some] at h
      obtain ⟨xb, _, h⟩ := h
      rw [Option.bind_eq_some] at h
      obtain ⟨C, _, h⟩ := h
      rw [Option.bind_eq_some] at h
      obtain ⟨t, _, h⟩ := h
      rw [Option.bind_eq_some] at h
      obtain ⟨rp2, _, h⟩ := h
      rw [Option.map_eq_some'] at h
      obtain ⟨⟨outs2, rpF2, cF2, lastC2⟩, hrest, heq⟩ := h
      have h1 := ih rp2 (c0 + 1) outs2 rpF2 cF2 lastC2 hrest
      injection heq with ha hb
      injection hb with hc hd
      injection hd with he hf
      subst ha hc he hf
      simp only [List.length_cons]
      omega

/-- Claim C4, amended: the length-encoding element of the shared
finalization equals (header_length << (bitwidth/2)) + counter, where
counter is the session counter at finalization time -- that is
block_count + 1, since the counter starts at 1 and increments once
per data block -- and the emitted tag is (accumulator XOR
length_element) x H XOR EK_nonce; both the encrypt and the decrypt
path finalize with that counter value. -/
theorem claim_C4_amended :
    (∀ (s : GCM) (num_bits : Nat) (Ek0 rp : GaloisPolynomial)
      (counter : Nat) (ek_nonce : GaloisPolynomial),
      GCM.finalize s num_bits Ek0 rp counter ek_nonce =
        (GaloisPolynomial.init num_bits
            ((s.header.length <<< (num_bits / 2)) + counter) []).bind
          fun extra_gp =>
          (rp.xor extra_gp).bind fun t =>
            (t.mult Ek0).bind fun rp2 =>
              (rp2.xor ek_nonce).bind fun gmac =>
                toBytesLE gmac.intval s.cipher.block_size) ∧
    (∀ (s : GCM) (blocks out : List Bytes),
      GCM.encrypt s blocks = some out →
      ∃ (ek_nonce Ek0 rpF : GaloisPolynomial) (header_bytes tag : Bytes)
        (body : List Bytes),
        body.length = blocks.length ∧
        GCM.finalize s (8 * s.cipher.block_size) Ek0 rpF
          (blocks.length + 1) ek_nonce = some tag ∧
        out = header_bytes :: body ++ [tag]) ∧
    (∀ (s : GCM) (blocks outs : List Bytes) (v : Bool),
      GCM.decrypt s blocks = some (outs, v) →
      ∃ (ek_nonce Ek0 rpF : GaloisPolynomial) (gmac_bytes lastC : Bytes),
        GCM.finalize s (8 * s.cipher.block_size) Ek0 rpF
          (outs.length + 1) ek_nonce = some gmac_bytes ∧
        v = decide (gmac_bytes = lastC)) := by
  refine ⟨fun s num_bits Ek0 rp counter ek_nonce => rfl, ?_, ?_⟩
  · intro s blocks out henc
    simp only [GCM.encrypt] at henc
    rw [Option.bind_eq_some] at henc
    obtain ⟨xb0, hxb0, henc⟩ := henc
    rw [Option.bind_eq_some] at henc
    obtain ⟨ek_nonce, hek, henc⟩ := henc
    by_cases hh : s.header.length ≤ s.cipher.block_size
    · rw [if_pos hh, Option.bind_eq_some] at henc
      obtain ⟨A, hA, henc⟩ := henc
      rw [Option.bind_eq_some] at henc
      obtain ⟨header_bytes, hhb, henc⟩ := henc
      rw [Option.bind_eq_some] at henc
      obtain ⟨Ek0, hEk0, henc⟩ := henc
      rw [Option.bind_eq_some] at henc
      obtain ⟨rp0, hrp0, henc⟩ := henc
      rw [Option.bind_eq_some] at henc
      obtain ⟨⟨body, rpF, cF⟩, hloop, henc⟩ := henc
      rw [Option.map_eq_some'] at henc
      obtain ⟨tag, htag, rfl⟩ := henc
      obtain ⟨hcF, hblen⟩ := gcm_encryptLoop_counter s _ Ek0 _ rp0 1 body
        rpF cF hloop
      rw [eof_signal_iterator_length] at hblen
      refine ⟨ek_nonce, Ek0, rpF, header_bytes, tag, body, hblen, ?_, rfl⟩
      have hcF2 : cF = blocks.length + 1 := by omega
      rw [← hcF2]
      exact htag
    · rw [if_neg hh] at henc
      exact absurd henc (by simp)
  · intro s blocks outs v hdec
    simp only [GCM.decrypt] at hdec
    rw [Option.bind_eq_some] at hdec
    obtain ⟨xb0, hxb0, hdec⟩ := hdec
    rw [Option.bind_eq_some] at hdec
    obtain ⟨ek_nonce, hek, hdec⟩ := hdec
    split at hdec
    · exact absurd hdec (by simp)
    · rename_i hb b rest heq
      by_cases hbtrue : b = true
      · rw [if_pos hbtrue] at hdec
        exact absurd hdec (by simp)
      · rw [if_neg hbtrue, Option.bind_eq_some] at hdec
        obtain ⟨A, hA, hdec⟩ := hdec
        rw [Option.bind_eq_some] at hdec
        obtain ⟨Ek0, hEk0, hdec⟩ := hdec
        rw [Option.bind_eq_some] at hdec
        obtain ⟨rp0, hrp0, hdec⟩ := hdec
        rw [Option.bind_eq_some] at hdec
        obtain ⟨⟨outs2, rpF, cF, lastC⟩, hloop, hdec⟩ := hdec
        rw [Option.map_eq_some'] at hdec
        obtain ⟨gmac_bytes, hg, heq⟩ := hdec
        have hcF := gcm_decryptLoop_counter s _ Ek0 rest rp0 1 outs2 rpF cF
          lastC hloop
        injection heq with h1 h2
        subst h1 h2
        refine ⟨ek_nonce, Ek0, rpF, gmac_bytes, lastC, ?_, rfl⟩
        have hcF2 : cF = outs2.length + 1 := by omega
        rw [← hcF2]
        exact hg

set_option maxRecDepth 100000 in
/-- Counterexample to claim C4 as stated: a one-block GCM encryption
(8-byte blocks, hash subkey H = 1, empty header) emits a tag in which
the low byte mixes in the final counter value 2, while the tag built
from the claim's length element -- header_length << 32 combined with
block_count = 1 -- differs in that byte.  The code adds the counter
(block_count + 1), not block_count. -/
theorem claim_C4_counterexample :
    GCM.encrypt ⟨oneCipher, [9, 9, 9, 9], []⟩ [[5, 5, 5, 5, 5, 5, 5, 5]] =
      some [[0, 0, 0, 0, 0, 0, 0, 0], [12, 12, 12, 12, 5, 5, 5, 4],
        [7, 5, 5, 5, 5, 5, 5, 4]] ∧
    GCM.encryptClaimedC4 ⟨oneCipher, [9, 9, 9, 9], []⟩
        [[5, 5, 5, 5, 5, 5, 5, 5]] =
      some [[0, 0, 0, 0, 0, 0, 0, 0], [12, 12, 12, 12, 5, 5, 5, 4],
        [4, 5, 5, 5, 5, 5, 5, 4]] ∧
    ([7, 5, 5, 5, 5, 5, 5, 4] : Bytes) ≠ [4, 5, 5, 5, 5, 5, 5, 4] := by
  exact ⟨by decide, by decide, by decide⟩

set_option maxRecDepth 100000 in
/-- Witness for the amended claim C4: a concrete one-block encryption
under the identity stub cipher, whose finalization runs at counter
1 + 1 = 2. -/
theorem claim_C4_witness :
    GCM.encrypt ⟨idCipher 8, [1, 2, 3, 4], [7]⟩ [[1, 2, 3, 4, 5, 6, 7, 8]] =
      some [[7, 0, 0, 0, 0, 0, 0, 0], [0, 0, 0, 0, 5, 6, 7, 9],
        [1, 2, 3, 4, 0, 0, 0, 0]] ∧
    (∃ (ek_nonce Ek0 rpF : GaloisPolynomial) (header_bytes tag : Bytes)
      (body : List Bytes),
      body.length = ([[1, 2, 3, 4, 5, 6, 7, 8]] : List Bytes).length ∧
      GCM.finalize ⟨idCipher 8, [1, 2, 3, 4], [7]⟩
        (8 * (idCipher 8).block_size) Ek0 rpF
        (([[1, 2, 3, 4, 5, 6, 7, 8]] : List Bytes).length + 1) ek_nonce =
        some tag ∧
      ([[7, 0, 0, 0, 0, 0, 0, 0], [0, 0, 0, 0, 5, 6, 7, 9],
        [1, 2, 3, 4, 0, 0, 0, 0]] : List Bytes) =
        header_bytes :: body ++ [tag]) := by
  refine ⟨by decide, ?_⟩
  exact claim_C4_amended.2.1 ⟨idCipher 8, [1, 2, 3, 4], [7]⟩
    [[1, 2, 3, 4, 5, 6, 7, 8]] _ (by decide)

theorem xor_xor_cancel :
    ∀ (p k : Bytes), p.length ≤ k.length →
      ModeOfOperation._xor (ModeOfOperation._xor p k) k = p := by
  intro p
  induction p with
  | nil => intro k _; cases k <;> rfl
  | cons x p ih =>
    intro k hk
    cases k with
    | nil => simp at hk
    | cons y k =>
      show Nat.xor (Nat.xor x y) y :: ModeOfOperation._xor
        (ModeOfOperation._xor p k) k = x :: p
      rw [ih k (by simpa using hk)]
      congr 1
      exact Nat.xor_cancel_right y x

theorem eof_signal_iterator_map_fst {α : Type} :
    ∀ l : List α, (eof_signal_iterator l).map Prod.fst = l := by
  intro l
  induction l with
  | nil => rfl
  | cons x xs ih =>
    rw [eof_signal_iterator_cons]
    simp [ih]

theorem gcm_loop_roundtrip (s : GCM) (nb : Nat) (Ek0 : GaloisPolynomial)
    (hbs : ∀ b : Bytes, b.length = s.cipher.block_size →
      (s.cipher.encrypt_block b).length = s.cipher.block_size) :
    ∀ (l : List (Bytes × Bool)) (rp : GaloisPolynomial) (c0 : Nat)
      (body : List Bytes) (rpF : GaloisPolynomial) (cF : Nat) (t : Bytes),
      (∀ de ∈ l, de.1.length = s.cipher.block_size) →
      GCM.encryptLoop s nb Ek0 rp c0 l = some (body, rpF, cF) →
      GCM.decryptLoop s nb Ek0 rp c0
          (body.map (fun x => (x, false)) ++ [(t, true)]) =
        some (l.map Prod.fst, rpF, cF, t) := by
  intro l
  induction l with
  | nil =>
    intro rp c0 body rpF cF t _ h
    injection h with h2
    have hbody : body = [] ∧ rpF = rp ∧ cF = c0 := by
      injection h2 with ha hb
      injection hb with hc hd
      exact ⟨ha.symm, hc.symm, hd.symm⟩
    obtain ⟨rfl, rfl, rfl⟩ := hbody
    rfl
  | cons de rest ih =>
    intro rp c0 body rpF cF t hlen h
    obtain ⟨data, eof⟩ := de
    rw [GCM.encryptLoop, Option.bind_eq_some] at h
    obtain ⟨xb, hxb, h⟩ := h
    rw [Option.bind_eq_some] at h
    obtain ⟨C, hC, h⟩ := h
    rw [Option.bind_eq_some] at h
    obtain ⟨tx, htx, h⟩ := h
    rw [Option.bind_eq_some] at h
    obtain ⟨rp2, hrp2, h⟩ := h
    rw [Option.map_eq_some'] at h
    obtain ⟨⟨outs, rpF2, cF2⟩, hrest, heq⟩ := h
    injection heq with ha hb
    injection hb with hc hd
    subst ha hc hd
    have hxblen : xb.length = s.cipher.block_size := by
      unfold GCM.get_xor_block at hxb
      rw [Option.bind_eq_some] at hxb
      obtain ⟨cb, hcb, hxb2⟩ := hxb
      by_cases hfit : (s.nonce ++ cb).length = s.cipher.block_size
      · rw [if_pos hfit, Option.some_inj] at hxb2
        rw [← hxb2]
        exact hbs _ hfit
      · rw [if_neg hfit] at hxb2
        exact absurd hxb2 (by simp)
    have hdata : ModeOfOperation._xor (ModeOfOperation._xor data xb) xb =
        data := by
      apply xor_xor_cancel
      rw [hxblen, hlen (data, eof) (List.mem_cons_self _ _)]
    show GCM.decryptLoop s nb Ek0 rp c0
      ((ModeOfOperation._xor data xb, false) ::
        (outs.map (fun x => (x, false)) ++ [(t, true)])) = _
    rw [GCM.decryptLoop]
    rw [if_neg (by simp), hxb, Option.some_bind, hdata, hC,
      Option.some_bind, htx, Option.some_bind, hrp2, Option.some_bind,
      ih rp2 (c0 + 1) outs rpF2 cF2 t
        (fun d hd => hlen d (List.mem_cons_of_mem _ hd)) hrest]
    rfl

/-- Claim C1: for a cipher primitive whose decrypt_block inverts
encrypt_block (and whose encrypt_block returns full blocks), a nonce
of half a block, a header of at most one block and a plaintext of
full blocks, decrypting the element sequence produced by GCM.encrypt
on a fresh session recovers exactly the plaintext blocks and reports
successful verification. -/
theorem claim_C1 (c : Cipher) (nonce header : Bytes) (pt out : List Bytes)
    (hinv : ∀ b : Bytes, b.length = c.block_size →
      c.decrypt_block (c.encrypt_block b) = b)
    (hbs : ∀ b : Bytes, b.length = c.block_size →
      (c.encrypt_block b).length = c.block_size)
    (hnonce : 2 * nonce.length = c.block_size)
    (hheader : header.length ≤ c.block_size)
    (hpt : ∀ b ∈ pt, b.length = c.block_size)
    (henc : GCM.encrypt ⟨c, nonce, header⟩ pt = some out) :
    GCM.decrypt ⟨c, nonce, header⟩ out = some (pt, true) := by
  simp only [GCM.encrypt] at henc
  rw [Option.bind_eq_some] at henc
  obtain ⟨xb0, hxb0, henc⟩ := henc
  rw [Option.bind_eq_some] at henc
  obtain ⟨ek, hek, henc⟩ := henc
  rw [if_pos hheader] at henc
  rw [Option.bind_eq_some] at henc
  obtain ⟨A, hA, henc⟩ := henc
  rw [Option.bind_eq_some] at henc
  obtain ⟨header_bytes, hhb, henc⟩ := henc
  rw [Option.bind_eq_some] at henc
  obtain ⟨Ek0, hEk0, henc⟩ := henc
  rw [Option.bind_eq_some] at henc
  obtain ⟨rp0, hrp0, henc⟩ := henc
  rw [Option.bind_eq_some] at henc
  obtain ⟨⟨body, rpF, cF⟩, hloop, henc⟩ := henc
  rw [Option.map_eq_some'] at henc
  obtain ⟨tag, htag, rfl⟩ := henc
  unfold toBytesLE at hhb
  by_cases hfit : fromBytesLE header < 256 ^ c.block_size
  case neg =>
    rw [if_neg hfit] at hhb
    exact absurd hhb (by simp)
  rw [if_pos hfit, Option.some_inj] at hhb
  have hfromhb : fromBytesLE header_bytes = fromBytesLE header := by
    rw [← hhb]
    exact fromBytesLE_natToBytesLE c.block_size _ hfit
  simp only [GCM.decrypt]
  rw [hxb0, Option.some_bind, hek, Option.some_bind]
  have hiem : (body ++ [tag]).isEmpty = false := by simp
  rw [List.cons_append, eof_signal_iterator_cons, hiem]
  split
  · rename_i heq
    exact absurd heq (by simp)
  · rename_i hb2 b2 rest2 heq
    injection heq with he1 he2
    injection he1 with he3 he4
    subst he3 he4 he2
    rw [if_neg (by simp), hfromhb, hA, Option.some_bind, hEk0,
      Option.some_bind, hrp0, Option.some_bind,
      eof_signal_iterator_append_last,
      gcm_loop_roundtrip ⟨c, nonce, header⟩ _ Ek0 hbs
        (eof_signal_iterator pt) rp0 1 body rpF cF tag
        (fun de hde => hpt de.1
          (by rw [← eof_signal_iterator_map_fst pt]
              exact List.mem_map_of_mem Prod.fst hde)) hloop,
      Option.some_bind, eof_signal_iterator_map_fst, htag]
    simp

set_option maxRecDepth 100000 in
/-- Witness for claim C1: a concrete one-block GCM round trip under
the identity stub cipher recovers the plaintext and verifies. -/
theorem claim_C1_witness :
    (2 * ([1, 2, 3, 4] : Bytes).length = (idCipher 8).block_size ∧
     ([7] : Bytes).length ≤ (idCipher 8).block_size ∧
     GCM.encrypt ⟨idCipher 8, [1, 2, 3, 4], [7]⟩ [[1, 2, 3, 4, 5, 6, 7, 8]] =
       some [[7, 0, 0, 0, 0, 0, 0, 0], [0, 0, 0, 0, 5, 6, 7, 9],
         [1, 2, 3, 4, 0, 0, 0, 0]]) ∧
    GCM.decrypt ⟨idCipher 8, [1, 2, 3, 4], [7]⟩
        [[7, 0, 0, 0, 0, 0, 0, 0], [0, 0, 0, 0, 5, 6, 7, 9],
          [1, 2, 3, 4, 0, 0, 0, 0]] =
      some ([[1, 2, 3, 4, 5, 6, 7, 8]], true) := by
  refine ⟨⟨by decide, by decide, by decide⟩, ?_⟩
  exact claim_C1 (idCipher 8) [1, 2, 3, 4] [7] [[1, 2, 3, 4, 5, 6, 7, 8]] _
    (fun b _ => rfl) (fun b h => h) (by decide) (by decide) (by decide)
    (by decide)
